import Mathlib

/-! Verification development for go-zero: `rpcx.RpcProxy`, `httphandler.MetricHandler` and
`ngin.NgConf`.

Shallow embedding of

* `src/rpcx/proxy.go` (`NewRpcProxy`, `RpcProxy.TakeConn`),
* `src/core/httphandler/metrichandler.go` (`MetricHandler`),
* `src/ngin/config.go` (`SignatureConf`, `NgConf` and their field tags).

Stateful code is written in state-passing style.  Collaborators whose source is not part of
the tree (`auth.ParseCredential`, `NewClient`, `RpcClient.Next`, `timex.Now`, `stat.Metrics.Add`)
are parameters of the embedding, collected in an environment structure; `syncx.SharedCalls`
and `timex.Since`, also outside the tree, are modelled from the specification and marked so.
Definitions come first, theorems after them.
-/

namespace Rpcx

/-! ## Data model of `rpcx` -/

/-- Result of `auth.ParseCredential`: the tenant identity carried by a call context. -/
structure Credential where
  App : String
  Token : String
  deriving DecidableEq, Repr

/-- The fields of `RpcClientConf` that `TakeConn` fills in when it dials. -/
structure RpcClientConf where
  Server : String
  App : String
  Token : String
  deriving DecidableEq, Repr

/-- A Go `map[string]*RpcClient`: a lookup that yields a client for the keys that are present. -/
abbrev ClientMap (Client : Type) := String → Option Client

/-- Map read `client, ok := m[key]`. -/
def ClientMap.get {Client : Type} (m : ClientMap Client) (key : String) : Option Client :=
  m key

/-- Map write `m[key] = client`. -/
def ClientMap.set {Client : Type} (m : ClientMap Client) (key : String) (client : Client) :
    ClientMap Client :=
  fun k => if k = key then some client else m k

/-- The `RpcProxy` struct.  The fields `sharedCalls` and `lock` only coordinate concurrent
callers and carry no data in a sequential run. -/
structure RpcProxy (Client Opt : Type) where
  backend : String
  clients : ClientMap Client
  options : List Opt

/-- The constructor `NewRpcProxy(backend, opts...)`: an empty client cache. -/
def NewRpcProxy {Client Opt : Type} (backend : String) (opts : List Opt) : RpcProxy Client Opt :=
  { backend := backend, clients := fun _ => none, options := opts }

/-- The collaborators of `TakeConn` whose source is outside the tree, as operations on an
explicit world state `W`. -/
structure Env (Ctx Client Conn Err Opt W : Type) where
  /-- The call `auth.ParseCredential(ctx)`. -/
  ParseCredential : Ctx → Credential
  /-- The call `NewClient(conf, options...)`: the dial operation; it returns a client or an error. -/
  NewClient : RpcClientConf → List Opt → W → Except Err Client × W
  /-- The method `(*RpcClient).Next()`: connection selection; `none` is `ok = false`. -/
  Next : Client → W → Option Conn × W
  /-- The value `grpc.ErrServerStopped`. -/
  ErrServerStopped : Err

/-- The composite key `cred.App + "/" + cred.Token` of `TakeConn`. -/
def compositeKey (cred : Credential) : String :=
  cred.App ++ "/" ++ cred.Token

/-- Modelled from the spec: `syncx.SharedCalls.Do` (source missing) for a caller that finds no
call for the key in flight: the caller becomes the executor, runs the operation itself and
receives its result; nothing is kept for the key afterwards. -/
def SharedCalls.Do {α : Type} (_key : String) (fn : α) : α :=
  fn

/-- The closure that `TakeConn` hands to `sharedCalls.Do` (proxy.go lines 34-55): look the
key up in the cache, otherwise dial and store on success. -/
def TakeConn.fn {Ctx Client Conn Err Opt W : Type} (E : Env Ctx Client Conn Err Opt W)
    (cred : Credential) (key : String) (p : RpcProxy Client Opt) (w : W) :
    Except Err Client × RpcProxy Client Opt × W :=
  match p.clients.get key with
  | some client => (.ok client, p, w)
  | none =>
    match E.NewClient { Server := p.backend, App := cred.App, Token := cred.Token } p.options w with
    | (.error err, w1) => (.error err, p, w1)
    | (.ok client, w1) => (.ok client, { p with clients := p.clients.set key client }, w1)

/-- The method `(*RpcProxy).TakeConn(ctx)`.  The Go result pair `(*grpc.ClientConn, error)` is a pair of
options, `none` standing for `nil`. -/
def TakeConn {Ctx Client Conn Err Opt W : Type} (E : Env Ctx Client Conn Err Opt W)
    (p : RpcProxy Client Opt) (ctx : Ctx) (w : W) :
    (Option Conn × Option Err) × RpcProxy Client Opt × W :=
  let cred := E.ParseCredential ctx
  let key := compositeKey cred
  match SharedCalls.Do key (TakeConn.fn E cred key p w) with
  | (.error err, p1, w1) => ((none, some err), p1, w1)
  | (.ok val, p1, w1) =>
    match E.Next val w1 with
    | (none, w2) => ((none, some E.ErrServerStopped), p1, w2)
    | (some conn, w2) => ((some conn, none), p1, w2)

/-- A sequence of `TakeConn` calls on one proxy, one per context, in order; the results are
listed in call order. -/
def TakeConns {Ctx Client Conn Err Opt W : Type} (E : Env Ctx Client Conn Err Opt W)
    (p : RpcProxy Client Opt) (ctxs : List Ctx) (w : W) :
    List (Option Conn × Option Err) × RpcProxy Client Opt × W :=
  match ctxs with
  | [] => ([], p, w)
  | ctx :: rest =>
    match TakeConn E p ctx w with
    | (r, p1, w1) =>
      match TakeConns E p1 rest w1 with
      | (rs, p2, w2) => (r :: rs, p2, w2)

/-- The result pair that lines 60-65 of `TakeConn` build from what `Next` reported. -/
def connResult {Ctx Client Conn Err Opt W : Type} (E : Env Ctx Client Conn Err Opt W) :
    Option Conn → Option Conn × Option Err
  | none => (none, some E.ErrServerStopped)
  | some conn => (some conn, none)

/-- The configuration with which `TakeConn` dials for the credential `cred`. -/
def dialConf {Client Opt : Type} (p : RpcProxy Client Opt) (cred : Credential) : RpcClientConf :=
  { Server := p.backend, App := cred.App, Token := cred.Token }

/-! ## Observing the collaborators -/

/-- One invocation of a collaborator, with its arguments and its result. -/
inductive Event (Client Conn Err Opt : Type) where
  | dial (conf : RpcClientConf) (opts : List Opt) (res : Except Err Client)
  | next (client : Client) (res : Option Conn)

/-- Is the event an invocation of the dial operation? -/
def Event.isDial {Client Conn Err Opt : Type} : Event Client Conn Err Opt → Bool
  | .dial _ _ _ => true
  | .next _ _ => false

/-- Is the event an invocation of `Next`? -/
def Event.isNext {Client Conn Err Opt : Type} : Event Client Conn Err Opt → Bool
  | .dial _ _ _ => false
  | .next _ _ => true

/-- The environment `E` with every invocation of `NewClient` and `Next` appended to a log
that travels with the world state.  `TakeConn` itself is unchanged: it is run on this
environment. -/
def Env.traced {Ctx Client Conn Err Opt W : Type} (E : Env Ctx Client Conn Err Opt W) :
    Env Ctx Client Conn Err Opt (W × List (Event Client Conn Err Opt)) where
  ParseCredential := E.ParseCredential
  NewClient := fun conf opts s =>
    ((E.NewClient conf opts s.1).1,
      ((E.NewClient conf opts s.1).2, s.2 ++ [.dial conf opts (E.NewClient conf opts s.1).1]))
  Next := fun client s =>
    ((E.Next client s.1).1, ((E.Next client s.1).2, s.2 ++ [.next client (E.Next client s.1).1]))
  ErrServerStopped := E.ErrServerStopped

/-- The call `TakeConn(ctx)` made on a fresh proxy (`NewRpcProxy`) after the calls for the
contexts of `pre` have been made on it, on the traced environment. -/
def callAfter {Ctx Client Conn Err Opt W : Type} (E : Env Ctx Client Conn Err Opt W)
    (backend : String) (opts : List Opt) (pre : List Ctx) (ctx : Ctx) (w : W) :
    (Option Conn × Option Err) × RpcProxy Client Opt × W × List (Event Client Conn Err Opt) :=
  TakeConn E.traced (TakeConns E.traced (NewRpcProxy backend opts) pre (w, [])).2.1 ctx
    (TakeConns E.traced (NewRpcProxy backend opts) pre (w, [])).2.2

/-- Every cached client was returned by a logged dial, made for this backend with these
options and with a credential whose composite key is the key the client is cached under. -/
def CacheDialed {Client Conn Err Opt : Type} (backend : String) (opts : List Opt)
    (p : RpcProxy Client Opt) (log : List (Event Client Conn Err Opt)) : Prop :=
  p.backend = backend ∧ p.options = opts
    ∧ ∀ k c, p.clients.get k = some c →
        ∃ dialed : Credential,
          Event.dial { Server := backend, App := dialed.App, Token := dialed.Token } opts (.ok c)
              ∈ log
            ∧ compositeKey dialed = k

/-! ## A concrete environment -/

/-- A small environment to run the proxy on: the context is the credential itself, the world
is a counter of dials, the `n`-th dial succeeds with client `n` unless the application id is
empty, and client `c` offers connection `100 + c` unless `c` is `7` or more. -/
def sampleEnv : Env Credential Nat Nat String Unit Nat where
  ParseCredential := fun cred => cred
  NewClient := fun conf _ w => if conf.App = "" then (.error "no app", w) else (.ok w, w + 1)
  Next := fun c w => if c < 7 then (some (100 + c), w) else (none, w)
  ErrServerStopped := "grpc: the server has been stopped"

/-! ## Concurrent callers -/

namespace Concurrent

/-- Where one caller of `TakeConn` stands.  The executor states `check`, `dialing`, `store`
and `finish` are the statements of the closure of proxy.go lines 34-55; `dialing` is the time
during which `NewClient` runs. -/
inductive Pc (Client Conn Err : Type) where
  /-- Credential and key computed (lines 32-33), about to enter `sharedCalls.Do`. -/
  | start
  /-- Blocked inside `Do` on the in-flight call created by caller `owner`. -/
  | waiting (owner : Nat)
  /-- Executor before the cache read of lines 35-37. -/
  | check
  /-- Executor inside `NewClient` (line 42). -/
  | dialing
  /-- Executor before the cache write of lines 51-53, holding the dialed client. -/
  | store (client : Client)
  /-- The closure has returned `res`; the executor is about to complete the call. -/
  | finish (res : Except Err Client)
  /-- The call of `Do` has returned `res` to this caller (line 56). -/
  | gotVal (res : Except Err Client)
  /-- The call of `TakeConn` has returned. -/
  | done (r : Option Conn × Option Err)

/-- One caller: the context it passed and where it stands. -/
structure Thread (Ctx Client Conn Err : Type) where
  ctx : Ctx
  pc : Pc Client Conn Err

/-- Modelled from the spec: the state of `syncx.SharedCalls` (source missing), together with
the proxy, the callers and the world.  `calls key = some t` says that a call for `key` is in
flight and caller `t` is its executor; `results t` is the result/error pair of the in-flight
call record created by `t`, once resolved.  The waiters of a record are the callers whose
state is `waiting t`. -/
structure Sys (Ctx Client Conn Err Opt W : Type) where
  proxy : RpcProxy Client Opt
  calls : String → Option Nat
  results : Nat → Option (Except Err Client)
  threads : Nat → Thread Ctx Client Conn Err
  world : W

/-- Caller `t` moves to `pc`. -/
def Sys.setPc {Ctx Client Conn Err Opt W : Type} (s : Sys Ctx Client Conn Err Opt W) (t : Nat)
    (pc : Pc Client Conn Err) : Sys Ctx Client Conn Err Opt W :=
  { s with threads := fun u => if u = t then { ctx := (s.threads t).ctx, pc := pc } else s.threads u }

/-- The composite key of caller `t`. -/
def Sys.keyOf {Ctx Client Conn Err Opt W : Type} (E : Env Ctx Client Conn Err Opt W)
    (s : Sys Ctx Client Conn Err Opt W) (t : Nat) : String :=
  compositeKey (E.ParseCredential (s.threads t).ctx)

/-- A fresh proxy (`NewRpcProxy`) on which every caller `t` is about to call
`TakeConn (ctxs t)`. -/
def Sys.init {Ctx Client Conn Err Opt W : Type} (backend : String) (opts : List Opt)
    (ctxs : Nat → Ctx) (w : W) : Sys Ctx Client Conn Err Opt W :=
  { proxy := NewRpcProxy backend opts
    calls := fun _ => none
    results := fun _ => none
    threads := fun t => { ctx := ctxs t, pc := .start }
    world := w }

/-- One atomic step of caller `t`.  Modelled from the spec: the steps out of `start`,
`waiting` and `finish` are `syncx.SharedCalls.Do` (source missing): a caller that finds no call
for its key in flight becomes the executor and runs the operation, a caller that finds one
blocks without running the operation until that call completes and then receives the
executor's result pair, and on completion the key entry is removed.  The other steps are the
statements of `TakeConn`; the cache read and the cache write each happen under `p.lock`,
the dial happens outside it.  A caller that is blocked or has returned does not move. -/
def step {Ctx Client Conn Err Opt W : Type} (E : Env Ctx Client Conn Err Opt W) (t : Nat)
    (s : Sys Ctx Client Conn Err Opt W) : Sys Ctx Client Conn Err Opt W :=
  let cred := E.ParseCredential (s.threads t).ctx
  let key := compositeKey cred
  match (s.threads t).pc with
  | .start =>
    match s.calls key with
    | some owner => s.setPc t (.waiting owner)
    | none => { s.setPc t .check with calls := fun k => if k = key then some t else s.calls k }
  | .waiting owner =>
    match s.results owner with
    | none => s
    | some res => s.setPc t (.gotVal res)
  | .check =>
    match s.proxy.clients.get key with
    | some client => s.setPc t (.finish (.ok client))
    | none => s.setPc t .dialing
  | .dialing =>
    match E.NewClient { Server := s.proxy.backend, App := cred.App, Token := cred.Token }
        s.proxy.options s.world with
    | (.error err, w1) => { s.setPc t (.finish (.error err)) with world := w1 }
    | (.ok client, w1) => { s.setPc t (.store client) with world := w1 }
  | .store client =>
    { s.setPc t (.finish (.ok client)) with
      proxy := { s.proxy with clients := s.proxy.clients.set key client } }
  | .finish res =>
    { s.setPc t (.gotVal res) with
      calls := fun k => if k = key then none else s.calls k
      results := fun u => if u = t then some res else s.results u }
  | .gotVal (.error err) => s.setPc t (.done (none, some err))
  | .gotVal (.ok val) =>
    match E.Next val s.world with
    | (none, w2) => { s.setPc t (.done (none, some E.ErrServerStopped)) with world := w2 }
    | (some conn, w2) => { s.setPc t (.done (some conn, none)) with world := w2 }
  | .done _ => s

/-- An interleaving: the callers named in the schedule take one step each, in order. -/
def run {Ctx Client Conn Err Opt W : Type} (E : Env Ctx Client Conn Err Opt W)
    (sched : List Nat) (s : Sys Ctx Client Conn Err Opt W) : Sys Ctx Client Conn Err Opt W :=
  match sched with
  | [] => s
  | t :: rest => run E rest (step E t s)

/-- Caller `t` is inside `NewClient`: a client for its key is under construction. -/
def Sys.dialing {Ctx Client Conn Err Opt W : Type} (s : Sys Ctx Client Conn Err Opt W)
    (t : Nat) : Prop :=
  (s.threads t).pc = .dialing

/-- The caller is the executor of an in-flight call: it is somewhere inside the closure. -/
def Pc.isExec {Client Conn Err : Type} : Pc Client Conn Err → Bool
  | .check => true
  | .dialing => true
  | .store _ => true
  | .finish _ => true
  | _ => false

/-- The caller has missed the cache and has not yet stored a client. -/
def Pc.isBuilding {Client Conn Err : Type} : Pc Client Conn Err → Bool
  | .dialing => true
  | .store _ => true
  | _ => false

/-- What holds in every state that the callers can reach from `Sys.init`. -/
structure Inv {Ctx Client Conn Err Opt W : Type} (E : Env Ctx Client Conn Err Opt W)
    (s : Sys Ctx Client Conn Err Opt W) : Prop where
  /-- An executor is the registered executor of the call for its key. -/
  owner : ∀ t, (s.threads t).pc.isExec = true → s.calls (s.keyOf E t) = some t
  /-- The call registered for a key belongs to a caller with that key. -/
  callKey : ∀ k u, s.calls k = some u → s.keyOf E u = k
  /-- While a caller builds a client, the cache has none under its key. -/
  fresh : ∀ t, (s.threads t).pc.isBuilding = true → s.proxy.clients.get (s.keyOf E t) = none
  /-- A client returned by the closure is the cached one. -/
  finished : ∀ t c, (s.threads t).pc = .finish (.ok c) →
    s.proxy.clients.get (s.keyOf E t) = some c
  /-- A client returned by `Do` is the cached one. -/
  got : ∀ t c, (s.threads t).pc = .gotVal (.ok c) → s.proxy.clients.get (s.keyOf E t) = some c
  /-- A client recorded as the result of a call is the cached one. -/
  resolved : ∀ u c, s.results u = some (.ok c) → s.proxy.clients.get (s.keyOf E u) = some c
  /-- A waiter waits on a call for its own key. -/
  waitKey : ∀ t u, (s.threads t).pc = .waiting u → s.keyOf E u = s.keyOf E t

/-- More of what holds in every reachable state: how the in-flight calls, the recorded
results and the positions of the callers go together. -/
structure Inv2 {Ctx Client Conn Err Opt W : Type} (E : Env Ctx Client Conn Err Opt W)
    (s : Sys Ctx Client Conn Err Opt W) : Prop where
  /-- The caller registered for an in-flight call is inside the closure. -/
  callExec : ∀ k u, s.calls k = some u → (s.threads u).pc.isExec = true
  /-- The call of an executor is not yet resolved. -/
  execFresh : ∀ u, (s.threads u).pc.isExec = true → s.results u = none
  /-- A caller that has not entered `Do` has no call record. -/
  startFresh : ∀ u, (s.threads u).pc = .start → s.results u = none
  /-- After a failed dial the cache still has no client under the key of the executor. -/
  failedFresh : ∀ u e, (s.threads u).pc = .finish (.error e) →
    s.proxy.clients.get (s.keyOf E u) = none

/-- Caller `t` is being served by client `c`: it is not dialing and holds no freshly dialed
client; if it waits, then on a call that has resolved to `c` or is still run by its
executor; the closure and `Do` have handed it nothing but `c`; and if it has returned, its
result is the one that lines 60-65 build from a `Next` on `c`. -/
def Served {Ctx Client Conn Err Opt W : Type} (E : Env Ctx Client Conn Err Opt W) (c : Client)
    (t : Nat) (s : Sys Ctx Client Conn Err Opt W) : Prop :=
  match (s.threads t).pc with
  | .start => True
  | .waiting o =>
    s.results o = some (.ok c) ∨ (s.results o = none ∧ (s.threads o).pc.isExec = true)
  | .check => True
  | .dialing => False
  | .store _ => False
  | .finish res => res = .ok c
  | .gotVal res => res = .ok c
  | .done r => ∃ w, r = connResult E (E.Next c w).1

/-- Caller `t` can return with a connection of client `c` within `n` further steps: some
schedule of at most `n` steps takes it to the end of `TakeConn` with the result that lines
60-65 build from a `Next` on `c`. -/
def CanReturn {Ctx Client Conn Err Opt W : Type} (E : Env Ctx Client Conn Err Opt W) (c : Client)
    (t : Nat) (s : Sys Ctx Client Conn Err Opt W) (n : Nat) : Prop :=
  ∃ (more : List Nat) (w : W), more.length ≤ n
    ∧ ((run E more s).threads t).pc = .done (connResult E (E.Next c w).1)

end Concurrent

end Rpcx

namespace Httphandler

/-! ## `MetricHandler` -/

/-- A `stat.Task` as `MetricHandler` builds it: only `Duration` is set, a `time.Duration`
in nanoseconds. -/
structure Task where
  Duration : Int
  deriving DecidableEq, Repr

/-- How a call of `ServeHTTP` ends: it returns, or it panics with a value. -/
inductive Outcome (P : Type) where
  | returned
  | panicked (v : P)
  deriving DecidableEq, Repr

/-- An `http.Handler`: `ServeHTTP(w, r)` acting on the world, of which the response writer is
a part. -/
abbrev Handler (Req P W : Type) := Req → W → Outcome P × W

/-- The collaborators of `MetricHandler` whose source is outside the tree. -/
structure Env (M W : Type) where
  /-- The call `timex.Now()`: a reading of the clock. -/
  Now : W → Int × W
  /-- The call `metrics.Add(task)` on the sink `metrics`. -/
  Add : M → Task → W → W

/-- Modelled from the spec: `timex.Since(d)` (source missing), the wall-clock time elapsed
since the reading `d`: a new reading of the clock minus `d`. -/
def Since {M W : Type} (E : Env M W) (d : Int) (w : W) : Int × W :=
  ((E.Now w).1 - d, (E.Now w).2)

/-- The handler `MetricHandler(metrics)(next)`.  The deferred function runs when `next.ServeHTTP` has
returned and also when it has panicked; after it the outcome of `next` continues. -/
def MetricHandler {M Req P W : Type} (E : Env M W) (metrics : M) (next : Handler Req P W) :
    Handler Req P W :=
  fun r w =>
    match E.Now w with
    | (startTime, w1) =>
      match next r w1 with
      | (out, w2) =>
        match Since E startTime w2 with
        | (d, w3) => (out, E.Add metrics { Duration := d } w3)

/-- One observable action of a request: a clock reading, `next.ServeHTTP` being entered or
left, a task being added to a sink. -/
inductive Event (M Req P : Type) where
  | now (t : Int)
  | enter (r : Req)
  | leave (r : Req) (out : Outcome P)
  | add (metrics : M) (task : Task)
  deriving DecidableEq, Repr

/-- The environment with every clock reading and every added task appended to a log. -/
def Env.traced {M W : Type} (Req P : Type) (E : Env M W) : Env M (W × List (Event M Req P)) where
  Now := fun s => ((E.Now s.1).1, ((E.Now s.1).2, s.2 ++ [.now (E.Now s.1).1]))
  Add := fun metrics task s => (E.Add metrics task s.1, s.2 ++ [.add metrics task])

/-- The handler with every invocation of its `ServeHTTP` logged on entry and on exit. -/
def Handler.traced {Req P W : Type} (M : Type) (next : Handler Req P W) :
    Handler Req P (W × List (Event M Req P)) :=
  fun r s => ((next r s.1).1, ((next r s.1).2, s.2 ++ [.enter r, .leave r (next r s.1).1]))

/-! ## A concrete request -/

/-- A small environment to run the handler on: the world is the clock together with the
tasks added so far; taking a reading costs one tick. -/
def sampleEnv : Env Unit (Int × List Task) where
  Now := fun w => (w.1, (w.1 + 1, w.2))
  Add := fun _ task w => (w.1, w.2 ++ [task])

/-- A downstream handler that takes forty ticks and panics on the request `"boom"`. -/
def sampleNext : Handler String String (Int × List Task) :=
  fun r w => (if r = "boom" then .panicked "boom" else .returned, (w.1 + 40, w.2))

end Httphandler

namespace Ngin

/-! ## `NgConf` and `SignatureConf` -/

/-- One declared struct field: its name, its Go type and the content of its `json` tag. -/
structure Field where
  name : String
  type : String
  tag : String
  /-- The comment written above the field, if any. -/
  comment : String := ""
  deriving DecidableEq, Repr

/-- The fields of `SignatureConf` as declared in config.go. -/
def SignatureConf : List Field :=
  [ { name := "Strict", type := "bool", tag := ",default=false" },
    { name := "Expiry", type := "time.Duration", tag := ",default=1h" },
    { name := "PrivateKeys", type := "[]PrivateKeyConf", tag := "" } ]

/-- The fields of `NgConf` as declared in config.go (the embedded `service.ServiceConf`
apart). -/
def NgConf : List Field :=
  [ { name := "Host", type := "string", tag := ",default=0.0.0.0" },
    { name := "Port", type := "int", tag := "" },
    { name := "Verbose", type := "bool", tag := ",optional" },
    { name := "MaxConns", type := "int", tag := ",default=10000" },
    { name := "MaxBytes", type := "int64", tag := ",default=1048576,range=[0:8388608]" },
    { name := "Timeout", type := "int64", tag := ",default=3000", comment := "milliseconds" },
    { name := "CpuThreshold", type := "int64", tag := ",default=900,range=[0:1000]" },
    { name := "Signature", type := "SignatureConf", tag := ",optional" } ]

/-- Split a character list at every occurrence of `sep`. -/
def splitAt (sep : Char) : List Char → List (List Char)
  | [] => [[]]
  | c :: cs =>
    if c = sep then [] :: splitAt sep cs
    else
      match splitAt sep cs with
      | [] => [[c]]
      | x :: xs => (c :: x) :: xs

/-- Remove `pre` from the front of `s`, if `s` starts with it. -/
def dropLeading : List Char → List Char → Option (List Char)
  | [], s => some s
  | _ :: _, [] => none
  | p :: ps, c :: cs => if p = c then dropLeading ps cs else none

/-- The value of a decimal digit. -/
def digit (c : Char) : Option Nat :=
  if '0' ≤ c ∧ c ≤ '9' then some (c.toNat - '0'.toNat) else none

/-- Read digits onto the accumulator `acc`. -/
def parseDigits (acc : Nat) : List Char → Option Nat
  | [] => some acc
  | c :: cs =>
    match digit c with
    | none => none
    | some d => parseDigits (10 * acc + d) cs

/-- Read a non-empty decimal numeral. -/
def parseNat : List Char → Option Nat
  | [] => none
  | c :: cs => parseDigits 0 (c :: cs)

/-- Modelled from the spec: the tag option `default=V` of the configuration loader (source
missing) declares `V` as the value of a field that the configuration leaves out. -/
def defaultOpt (tag : String) : Option (List Char) :=
  (splitAt ',' tag.toList).findSome? (dropLeading "default=".toList)

/-- Modelled from the spec: the tag option `range=[lo:hi]` of the configuration loader (source
missing) declares the closed interval from `lo` to `hi` as the admissible values. -/
def rangeOpt (tag : String) : Option (Nat × Nat) :=
  match (splitAt ',' tag.toList).findSome? (dropLeading "range=[".toList) with
  | none => none
  | some body =>
    match splitAt ':' body with
    | [lo, hi] =>
      match parseNat lo, dropLeading [']'] hi.reverse with
      | some l, some ih =>
        match parseNat ih.reverse with
        | some h => some (l, h)
        | none => none
      | _, _ => none
    | _ => none

/-- The field called `name` among `fields`. -/
def field? (fields : List Field) (name : String) : Option Field :=
  fields.find? (fun f => f.name = name)

/-- The declared numeric default of field `name`. -/
def defaultNat (fields : List Field) (name : String) : Option Nat :=
  match field? fields name with
  | none => none
  | some f =>
    match defaultOpt f.tag with
    | none => none
    | some v => parseNat v

/-- The declared default of field `name`, as written. -/
def defaultText (fields : List Field) (name : String) : Option String :=
  match field? fields name with
  | none => none
  | some f => (defaultOpt f.tag).map String.mk

/-- The declared range of field `name`. -/
def range (fields : List Field) (name : String) : Option (Nat × Nat) :=
  match field? fields name with
  | none => none
  | some f => rangeOpt f.tag

/-- Nanoseconds in one unit of a Go duration literal. -/
def unitNanos : List Char → Option Nat
  | ['n', 's'] => some 1
  | ['u', 's'] => some 1000
  | ['m', 's'] => some 1000000
  | ['s'] => some 1000000000
  | ['m'] => some (60 * 1000000000)
  | ['h'] => some (3600 * 1000000000)
  | _ => none

/-- Value in nanoseconds of a duration literal made of one decimal numeral and one unit, such
as `1h` or `3000ms`. -/
def parseDuration (s : List Char) : Option Nat :=
  match parseNat (s.takeWhile Char.isDigit), unitNanos (s.dropWhile Char.isDigit) with
  | some n, some u => some (n * u)
  | _, _ => none

/-- The declared default of the duration field `name`, in nanoseconds. -/
def defaultDuration (fields : List Field) (name : String) : Option Nat :=
  match field? fields name with
  | none => none
  | some f =>
    match defaultOpt f.tag with
    | none => none
    | some v => parseDuration v

/-- The declared default of the boolean field `name`. -/
def defaultBool (fields : List Field) (name : String) : Option Bool :=
  match field? fields name with
  | none => none
  | some f =>
    match defaultOpt f.tag with
    | some ['t', 'r', 'u', 'e'] => some true
    | some ['f', 'a', 'l', 's', 'e'] => some false
    | _ => none

/-- The comment written above field `name`. -/
def commentOf (fields : List Field) (name : String) : Option String :=
  (field? fields name).map (fun f => f.comment)

/-- A field keeps its declared default inside its declared range; a field that lacks either
has nothing to keep. -/
def defaultInRange (f : Field) : Bool :=
  match defaultOpt f.tag, rangeOpt f.tag with
  | some v, some (lo, hi) =>
    match parseNat v with
    | some d => decide (lo ≤ d ∧ d ≤ hi)
    | none => false
  | _, _ => true

end Ngin

/-! # Theorems -/

namespace Rpcx

section Sequential

variable {Ctx Client Conn Err Opt W : Type}

/-! ## The three paths of `TakeConn` -/

theorem takeConn_hit (E : Env Ctx Client Conn Err Opt W) (p : RpcProxy Client Opt) (ctx : Ctx)
    (w : W) (c : Client)
    (h : p.clients.get (compositeKey (E.ParseCredential ctx)) = some c) :
    TakeConn E p ctx w = (connResult E (E.Next c w).1, p, (E.Next c w).2) := by
  unfold TakeConn SharedCalls.Do TakeConn.fn
  simp only [h]
  rcases hn : E.Next c w with ⟨_ | conn, w2⟩ <;> simp [connResult]

theorem takeConn_fail (E : Env Ctx Client Conn Err Opt W) (p : RpcProxy Client Opt) (ctx : Ctx)
    (w : W) (e : Err)
    (h : p.clients.get (compositeKey (E.ParseCredential ctx)) = none)
    (hd : (E.NewClient (dialConf p (E.ParseCredential ctx)) p.options w).1 = .error e) :
    TakeConn E p ctx w
      = ((none, some e), p, (E.NewClient (dialConf p (E.ParseCredential ctx)) p.options w).2) := by
  unfold TakeConn SharedCalls.Do TakeConn.fn
  simp only [h]
  unfold dialConf at hd
  rcases hn : E.NewClient _ p.options w with ⟨r, w1⟩
  rw [hn] at hd
  simp only at hd
  subst hd
  simp [dialConf, hn]

theorem takeConn_dial (E : Env Ctx Client Conn Err Opt W) (p : RpcProxy Client Opt) (ctx : Ctx)
    (w : W) (c : Client)
    (h : p.clients.get (compositeKey (E.ParseCredential ctx)) = none)
    (hd : (E.NewClient (dialConf p (E.ParseCredential ctx)) p.options w).1 = .ok c) :
    TakeConn E p ctx w
      = (connResult E (E.Next c (E.NewClient (dialConf p (E.ParseCredential ctx)) p.options w).2).1,
          { p with clients := p.clients.set (compositeKey (E.ParseCredential ctx)) c },
          (E.Next c (E.NewClient (dialConf p (E.ParseCredential ctx)) p.options w).2).2) := by
  unfold TakeConn SharedCalls.Do TakeConn.fn
  simp only [h]
  unfold dialConf at hd
  rcases hn : E.NewClient _ p.options w with ⟨r, w1⟩
  rw [hn] at hd
  simp only at hd
  subst hd
  simp only [dialConf, hn]
  rcases hx : E.Next c w1 with ⟨_ | conn, w2⟩ <;> simp [connResult]

/-! ## Running on the traced environment -/

theorem traced_parse (E : Env Ctx Client Conn Err Opt W) (ctx : Ctx) :
    E.traced.ParseCredential ctx = E.ParseCredential ctx := rfl

/-- The traced run of one call: same result, same proxy, same world as the plain run. -/
theorem traced_takeConn (E : Env Ctx Client Conn Err Opt W) (p : RpcProxy Client Opt) (ctx : Ctx)
    (w : W) (l : List (Event Client Conn Err Opt)) :
    (TakeConn E.traced p ctx (w, l)).1 = (TakeConn E p ctx w).1
      ∧ (TakeConn E.traced p ctx (w, l)).2.1 = (TakeConn E p ctx w).2.1
      ∧ (TakeConn E.traced p ctx (w, l)).2.2.1 = (TakeConn E p ctx w).2.2 := by
  rcases h : p.clients.get (compositeKey (E.ParseCredential ctx)) with _ | c
  · rcases hd : (E.NewClient (dialConf p (E.ParseCredential ctx)) p.options w).1 with e | c
    · rw [takeConn_fail E p ctx w e h hd,
        takeConn_fail E.traced p ctx (w, l) e h (by simpa [Env.traced] using hd)]
      simp [Env.traced]
    · rw [takeConn_dial E p ctx w c h hd,
        takeConn_dial E.traced p ctx (w, l) c h (by simpa [Env.traced] using hd)]
      refine ⟨?_, ?_, ?_⟩
      · cases hx : (E.Next c (E.NewClient (dialConf p (E.ParseCredential ctx)) p.options w).2).1 <;>
          simp [Env.traced, connResult, hx]
      · simp [Env.traced]
      · simp [Env.traced]
  · rw [takeConn_hit E p ctx w c h, takeConn_hit E.traced p ctx (w, l) c h]
    refine ⟨?_, ?_, ?_⟩
    · cases hx : (E.Next c w).1 <;> simp [Env.traced, connResult, hx]
    · rfl
    · simp [Env.traced]

/-- The log of a call that finds its client in the cache: one `Next`, no dial. -/
theorem traced_log_hit (E : Env Ctx Client Conn Err Opt W) (p : RpcProxy Client Opt) (ctx : Ctx)
    (w : W) (l : List (Event Client Conn Err Opt)) (c : Client)
    (h : p.clients.get (compositeKey (E.ParseCredential ctx)) = some c) :
    (TakeConn E.traced p ctx (w, l)).2.2.2 = l ++ [.next c (E.Next c w).1] := by
  rw [takeConn_hit E.traced p ctx (w, l) c h]
  simp [Env.traced]

/-- The log of a call whose dial fails: one dial, no `Next`. -/
theorem traced_log_fail (E : Env Ctx Client Conn Err Opt W) (p : RpcProxy Client Opt) (ctx : Ctx)
    (w : W) (l : List (Event Client Conn Err Opt)) (e : Err)
    (h : p.clients.get (compositeKey (E.ParseCredential ctx)) = none)
    (hd : (E.NewClient (dialConf p (E.ParseCredential ctx)) p.options w).1 = .error e) :
    (TakeConn E.traced p ctx (w, l)).2.2.2
      = l ++ [.dial (dialConf p (E.ParseCredential ctx)) p.options (.error e)] := by
  rw [takeConn_fail E.traced p ctx (w, l) e h (by simpa [Env.traced] using hd)]
  simp [Env.traced, hd]

/-- The log of a call whose dial succeeds: one dial, then one `Next` on the dialed client. -/
theorem traced_log_dial (E : Env Ctx Client Conn Err Opt W) (p : RpcProxy Client Opt) (ctx : Ctx)
    (w : W) (l : List (Event Client Conn Err Opt)) (c : Client)
    (h : p.clients.get (compositeKey (E.ParseCredential ctx)) = none)
    (hd : (E.NewClient (dialConf p (E.ParseCredential ctx)) p.options w).1 = .ok c) :
    (TakeConn E.traced p ctx (w, l)).2.2.2
      = l ++ [.dial (dialConf p (E.ParseCredential ctx)) p.options (.ok c),
              .next c (E.Next c (E.NewClient (dialConf p (E.ParseCredential ctx)) p.options w).2).1] := by
  rw [takeConn_dial E.traced p ctx (w, l) c h (by simpa [Env.traced] using hd)]
  simp [Env.traced, hd]

/-! ## Claims about one call -/

/-- C2. Dial failure is propagated with no cache pollution: when the cache has no client
under the composite key of the call's credential and `NewClient` fails with error `e`,
`TakeConn` returns a nil connection together with exactly `e`, the proxy (and so its client
cache) after the call is the proxy before it, and `Next` is not called. -/
theorem takeConn_dial_failure (E : Env Ctx Client Conn Err Opt W) (p : RpcProxy Client Opt)
    (ctx : Ctx) (w : W) (e : Err)
    (hmiss : p.clients.get (compositeKey (E.ParseCredential ctx)) = none)
    (hfail : (E.NewClient (dialConf p (E.ParseCredential ctx)) p.options w).1 = .error e) :
    (TakeConn E p ctx w).1 = (none, some e)
      ∧ (TakeConn E p ctx w).2.1.clients = p.clients
      ∧ (TakeConn E p ctx w).2.1 = p
      ∧ (TakeConn E.traced p ctx (w, [])).2.2.2
          = [.dial (dialConf p (E.ParseCredential ctx)) p.options (.error e)] := by
  rw [traced_log_fail E p ctx w [] e hmiss hfail, takeConn_fail E p ctx w e hmiss hfail]
  simp

theorem takeConn_dial_failure_witness :
    (TakeConn sampleEnv (NewRpcProxy "backend" []) ⟨"", "tok"⟩ 0).1 = (none, some "no app")
      ∧ (TakeConn sampleEnv (NewRpcProxy "backend" []) ⟨"", "tok"⟩ 0).2.1
          = NewRpcProxy "backend" [] :=
  ⟨(takeConn_dial_failure sampleEnv (NewRpcProxy "backend" []) ⟨"", "tok"⟩ 0 "no app"
      rfl rfl).1,
    (takeConn_dial_failure sampleEnv (NewRpcProxy "backend" []) ⟨"", "tok"⟩ 0 "no app"
      rfl rfl).2.2.1⟩

/-- C9. Cache entries are created once and never evicted or replaced: every key present in
the client cache before a `TakeConn` call is still present after it with the same client, and
a key that is present after the call but was not before is the composite key of the call's
credential, holding the client that a successful dial returned; so at most one key is added,
and none when the dial failed. -/
theorem takeConn_cache_monotone (E : Env Ctx Client Conn Err Opt W) (p : RpcProxy Client Opt)
    (ctx : Ctx) (w : W) :
    (∀ k c, p.clients.get k = some c → (TakeConn E p ctx w).2.1.clients.get k = some c)
      ∧ (∀ k c, p.clients.get k = none → (TakeConn E p ctx w).2.1.clients.get k = some c →
          k = compositeKey (E.ParseCredential ctx)
            ∧ (E.NewClient (dialConf p (E.ParseCredential ctx)) p.options w).1 = .ok c)
      ∧ (∀ e, (E.NewClient (dialConf p (E.ParseCredential ctx)) p.options w).1 = .error e →
          (TakeConn E p ctx w).2.1.clients = p.clients) := by
  rcases h : p.clients.get (compositeKey (E.ParseCredential ctx)) with _ | c0
  · rcases hd : (E.NewClient (dialConf p (E.ParseCredential ctx)) p.options w).1 with e | c1
    · rw [takeConn_fail E p ctx w e h hd]
      refine ⟨fun k c hk => hk, fun k c hk hk2 => ?_, fun _ _ => rfl⟩
      simp only [hk] at hk2
      cases hk2
    · rw [takeConn_dial E p ctx w c1 h hd]
      refine ⟨fun k c hk => ?_, fun k c hk hk2 => ?_, fun e he => by cases he⟩
      · have hne : k ≠ compositeKey (E.ParseCredential ctx) := by
          intro heq
          rw [heq, h] at hk
          cases hk
        simpa [ClientMap.get, ClientMap.set, hne] using hk
      · by_cases heq : k = compositeKey (E.ParseCredential ctx)
        · subst heq
          simpa [ClientMap.get, ClientMap.set] using hk2
        · simp only [ClientMap.get, ClientMap.set, heq, if_false] at hk2
          simp only [ClientMap.get] at hk
          rw [hk] at hk2
          cases hk2
  · rw [takeConn_hit E p ctx w c0 h]
    refine ⟨fun k c hk => hk, fun k c hk hk2 => ?_, fun _ _ => rfl⟩
    simp only [hk] at hk2
    cases hk2

/-- C3. Backend unavailable: when the client obtained for the credential by the closure of
`TakeConn` (found in the cache or freshly dialed) reports no available connection, `TakeConn`
returns a nil connection with the error `grpc.ErrServerStopped`, so no connection with a nil
error; the collaborators it has called are at most one dial, made only when the cache had no
client, and exactly one `Next`. -/
theorem takeConn_backend_unavailable (E : Env Ctx Client Conn Err Opt W)
    (p : RpcProxy Client Opt) (ctx : Ctx) (w : W) (c : Client)
    (hc : (TakeConn.fn E (E.ParseCredential ctx) (compositeKey (E.ParseCredential ctx)) p w).1
        = .ok c)
    (hn : (E.Next c
        (TakeConn.fn E (E.ParseCredential ctx) (compositeKey (E.ParseCredential ctx)) p w).2.2).1
        = none) :
    (TakeConn E p ctx w).1 = (none, some E.ErrServerStopped)
      ∧ (∀ conn, (TakeConn E p ctx w).1 ≠ (some conn, none))
      ∧ ((p.clients.get (compositeKey (E.ParseCredential ctx)) = some c
            ∧ (TakeConn E.traced p ctx (w, [])).2.2.2 = [.next c none])
          ∨ (p.clients.get (compositeKey (E.ParseCredential ctx)) = none
            ∧ (TakeConn E.traced p ctx (w, [])).2.2.2
                = [.dial (dialConf p (E.ParseCredential ctx)) p.options (.ok c),
                   .next c none])) := by
  have key : (TakeConn E p ctx w).1 = (none, some E.ErrServerStopped)
      ∧ ((p.clients.get (compositeKey (E.ParseCredential ctx)) = some c
            ∧ (TakeConn E.traced p ctx (w, [])).2.2.2 = [.next c none])
          ∨ (p.clients.get (compositeKey (E.ParseCredential ctx)) = none
            ∧ (TakeConn E.traced p ctx (w, [])).2.2.2
                = [.dial (dialConf p (E.ParseCredential ctx)) p.options (.ok c),
                   .next c none])) := by
    rcases h : p.clients.get (compositeKey (E.ParseCredential ctx)) with _ | c0
    · rcases hd : (E.NewClient (dialConf p (E.ParseCredential ctx)) p.options w).1 with e | c1
      · exfalso
        unfold TakeConn.fn at hc
        simp only [h] at hc
        unfold dialConf at hd
        rcases hx : E.NewClient _ p.options w with ⟨r, w1⟩
        rw [hx] at hd hc
        simp only at hd
        subst hd
        simp at hc
      · have hcc : c1 = c ∧ (TakeConn.fn E (E.ParseCredential ctx)
            (compositeKey (E.ParseCredential ctx)) p w).2.2
              = (E.NewClient (dialConf p (E.ParseCredential ctx)) p.options w).2 := by
          unfold TakeConn.fn at hc ⊢
          simp only [h] at hc ⊢
          unfold dialConf at hd ⊢
          rcases hx : E.NewClient _ p.options w with ⟨r, w1⟩
          rw [hx] at hd hc
          simp only at hd
          subst hd
          simp only [Except.ok.injEq] at hc
          simp [hc]
        obtain ⟨rfl, hw⟩ := hcc
        rw [hw] at hn
        rw [takeConn_dial E p ctx w c1 h hd, traced_log_dial E p ctx w [] c1 h hd, hn]
        simp [connResult]
    · have hcc : c0 = c ∧ (TakeConn.fn E (E.ParseCredential ctx)
          (compositeKey (E.ParseCredential ctx)) p w).2.2 = w := by
        unfold TakeConn.fn at hc ⊢
        simp only [h] at hc ⊢
        simp only [Except.ok.injEq] at hc
        simp [hc]
      obtain ⟨rfl, hw⟩ := hcc
      rw [hw] at hn
      rw [takeConn_hit E p ctx w c0 h, traced_log_hit E p ctx w [] c0 h, hn]
      simp [connResult]
  refine ⟨key.1, fun conn hconn => ?_, key.2⟩
  rw [key.1] at hconn
  cases hconn

theorem takeConn_backend_unavailable_witness :
    (TakeConn sampleEnv
        { backend := "backend", clients := fun k => if k = "shop/t1" then some 9 else none,
          options := [] } ⟨"shop", "t1"⟩ 0).1
      = (none, some "grpc: the server has been stopped") :=
  (takeConn_backend_unavailable sampleEnv
    { backend := "backend", clients := fun k => if k = "shop/t1" then some 9 else none,
      options := [] } ⟨"shop", "t1"⟩ 0 9 rfl rfl).1

/-! ## Sequences of calls -/

theorem takeConns_cons (E : Env Ctx Client Conn Err Opt W) (p : RpcProxy Client Opt) (ctx : Ctx)
    (rest : List Ctx) (w : W) :
    TakeConns E p (ctx :: rest) w
      = ((TakeConn E p ctx w).1 :: (TakeConns E (TakeConn E p ctx w).2.1 rest (TakeConn E p ctx w).2.2).1,
          (TakeConns E (TakeConn E p ctx w).2.1 rest (TakeConn E p ctx w).2.2).2.1,
          (TakeConns E (TakeConn E p ctx w).2.1 rest (TakeConn E p ctx w).2.2).2.2) := rfl

/-- Calls that all find client `c` under their key leave the proxy alone and log one `Next`
on `c` each. -/
theorem traced_takeConns_hits (E : Env Ctx Client Conn Err Opt W) (p : RpcProxy Client Opt)
    (key : String) (c : Client) (h : p.clients.get key = some c) :
    ∀ (ctxs : List Ctx) (w : W) (l : List (Event Client Conn Err Opt)),
      (∀ ctx ∈ ctxs, compositeKey (E.ParseCredential ctx) = key) →
      (TakeConns E.traced p ctxs (w, l)).2.1 = p
        ∧ ∃ rs : List (Option Conn), rs.length = ctxs.length
            ∧ (TakeConns E.traced p ctxs (w, l)).2.2.2 = l ++ rs.map (Event.next c) := by
  intro ctxs
  induction ctxs with
  | nil =>
    intro w l _
    exact ⟨rfl, [], rfl, by simp [TakeConns]⟩
  | cons ctx rest ih =>
    intro w l hall
    have hk : p.clients.get (compositeKey (E.ParseCredential ctx)) = some c := by
      rw [hall ctx (List.mem_cons_self _ _)]
      exact h
    have hp : (TakeConn E.traced p ctx (w, l)).2.1 = p := by
      rw [takeConn_hit E.traced p ctx (w, l) c hk]
    have hl := traced_log_hit E p ctx w l c hk
    obtain ⟨ihp, rs, hlen, hlog⟩ := ih (TakeConn E.traced p ctx (w, l)).2.2.1
      (TakeConn E.traced p ctx (w, l)).2.2.2 (fun x hx => hall x (List.mem_cons_of_mem _ hx))
    rw [takeConns_cons, hp]
    refine ⟨ihp, (E.Next c w).1 :: rs, by simp [hlen], ?_⟩
    show (TakeConns E.traced p rest ((TakeConn E.traced p ctx (w, l)).2.2.1,
      (TakeConn E.traced p ctx (w, l)).2.2.2)).2.2.2 = _
    rw [hlog, hl]
    simp

theorem countP_isDial_next (c : Client) (rs : List (Option Conn)) :
    (rs.map (Event.next c : Option Conn → Event Client Conn Err Opt)).countP Event.isDial = 0 := by
  induction rs with
  | nil => rfl
  | cons r rs ih => simp [List.countP_cons, Event.isDial, ih]

/-- C1. Cache reuse: starting from a proxy whose cache has no entry under the composite key
of credential `cred`, with a dial that succeeds with client `c`, after `K = rest.length + 1`
successive `TakeConn` calls that all carry `cred` the dial operation has been invoked exactly
once; the first call has stored `c` under the key, and each of the `K` calls has asked that
same `c` for the connection. -/
theorem takeConns_cache_reuse (E : Env Ctx Client Conn Err Opt W) (p : RpcProxy Client Opt)
    (cred : Credential) (ctx0 : Ctx) (rest : List Ctx) (w : W) (c : Client)
    (hcred : ∀ ctx ∈ ctx0 :: rest, E.ParseCredential ctx = cred)
    (hmiss : p.clients.get (compositeKey cred) = none)
    (hdial : (E.NewClient (dialConf p cred) p.options w).1 = .ok c) :
    (TakeConn E p ctx0 w).2.1.clients.get (compositeKey cred) = some c
      ∧ (TakeConns E.traced p (ctx0 :: rest) (w, [])).2.1.clients.get (compositeKey cred) = some c
      ∧ (TakeConns E.traced p (ctx0 :: rest) (w, [])).2.2.2.countP Event.isDial = 1
      ∧ ∃ rs : List (Option Conn), rs.length = rest.length + 1
          ∧ (TakeConns E.traced p (ctx0 :: rest) (w, [])).2.2.2
              = Event.dial (dialConf p cred) p.options (.ok c) :: rs.map (Event.next c) := by
  have h0 : E.ParseCredential ctx0 = cred := hcred ctx0 (List.mem_cons_self _ _)
  have hmiss0 : p.clients.get (compositeKey (E.ParseCredential ctx0)) = none := by
    rw [h0]; exact hmiss
  have hdial0 : (E.NewClient (dialConf p (E.ParseCredential ctx0)) p.options w).1 = .ok c := by
    rw [h0]; exact hdial
  have hstore : (TakeConn E p ctx0 w).2.1.clients.get (compositeKey cred) = some c := by
    rw [takeConn_dial E p ctx0 w c hmiss0 hdial0, h0]
    simp [ClientMap.get, ClientMap.set]
  have hstoreT : (TakeConn E.traced p ctx0 (w, [])).2.1.clients.get (compositeKey cred)
      = some c := by
    rw [(traced_takeConn E p ctx0 w []).2.1]
    exact hstore
  have hlog0 := traced_log_dial E p ctx0 w [] c hmiss0 hdial0
  obtain ⟨hp, rs, hlen, hlog⟩ := traced_takeConns_hits E (TakeConn E.traced p ctx0 (w, [])).2.1
    (compositeKey cred) c hstoreT rest (TakeConn E.traced p ctx0 (w, [])).2.2.1
    (TakeConn E.traced p ctx0 (w, [])).2.2.2
    (fun x hx => by rw [hcred x (List.mem_cons_of_mem _ hx)])
  have hfinal : (TakeConns E.traced p (ctx0 :: rest) (w, [])).2.2.2
      = Event.dial (dialConf p cred) p.options (.ok c)
          :: ((E.Next c (E.NewClient (dialConf p cred) p.options w).2).1 :: rs).map
              (Event.next c) := by
    rw [takeConns_cons]
    show (TakeConns E.traced (TakeConn E.traced p ctx0 (w, [])).2.1 rest
      ((TakeConn E.traced p ctx0 (w, [])).2.2.1, (TakeConn E.traced p ctx0 (w, [])).2.2.2)).2.2.2
      = _
    rw [hlog, hlog0, h0]
    simp
  refine ⟨hstore, ?_, ?_, _, ?_, hfinal⟩
  · rw [takeConns_cons]
    show (TakeConns E.traced (TakeConn E.traced p ctx0 (w, [])).2.1 rest
      ((TakeConn E.traced p ctx0 (w, [])).2.2.1,
        (TakeConn E.traced p ctx0 (w, [])).2.2.2)).2.1.clients.get (compositeKey cred) = some c
    rw [hp]
    exact hstoreT
  · rw [hfinal, List.countP_cons, countP_isDial_next]
    simp [Event.isDial]
  · simp [hlen]

theorem takeConns_cache_reuse_witness :
    (TakeConns sampleEnv.traced (NewRpcProxy "backend" [])
        [⟨"shop", "t1"⟩, ⟨"shop", "t1"⟩, ⟨"shop", "t1"⟩] (0, [])).2.2.2.countP Event.isDial = 1 :=
  (takeConns_cache_reuse sampleEnv (NewRpcProxy "backend" []) ⟨"shop", "t1"⟩ ⟨"shop", "t1"⟩
    [⟨"shop", "t1"⟩, ⟨"shop", "t1"⟩] 0 0 (by decide) rfl rfl).2.2.1

/-! ## Which client serves a call -/

theorem list_split_at_sep (sep : Char) :
    ∀ (xs xs2 ys ys2 : List Char), sep ∉ xs → sep ∉ xs2 →
      xs ++ sep :: ys = xs2 ++ sep :: ys2 → xs = xs2 ∧ ys = ys2 := by
  intro xs
  induction xs with
  | nil =>
    intro xs2 ys ys2 _ h2 h
    cases xs2 with
    | nil => simpa using h
    | cons x xs2 =>
      simp only [List.nil_append, List.cons_append, List.cons.injEq] at h
      exact absurd (h.1 ▸ List.mem_cons_self _ _) h2
  | cons x xs ih =>
    intro xs2 ys ys2 h1 h2 h
    cases xs2 with
    | nil =>
      simp only [List.nil_append, List.cons_append, List.cons.injEq] at h
      exact absurd (h.1 ▸ List.mem_cons_self _ _) h1
    | cons x2 xs2 =>
      simp only [List.cons_append, List.cons.injEq] at h
      obtain ⟨hx, hrest⟩ := h
      have := ih xs2 ys ys2 (fun hm => h1 (List.mem_cons_of_mem _ hm))
        (fun hm => h2 (List.mem_cons_of_mem _ hm)) hrest
      exact ⟨by rw [hx, this.1], this.2⟩

/-- The composite key determines the credential when no application id contains `/`. -/
theorem compositeKey_inj (a b : Credential) (ha : '/' ∉ a.App.toList) (hb : '/' ∉ b.App.toList)
    (h : compositeKey a = compositeKey b) : a = b := by
  have hl : a.App.toList ++ '/' :: a.Token.toList = b.App.toList ++ '/' :: b.Token.toList := by
    have := congrArg String.data h
    simpa [compositeKey, String.toList] using this
  have := list_split_at_sep '/' _ _ _ _ ha hb hl
  cases a
  cases b
  simp only [Credential.mk.injEq]
  exact ⟨String.ext this.1, String.ext this.2⟩

theorem cacheDialed_new (backend : String) (opts : List Opt) :
    CacheDialed backend opts (NewRpcProxy backend opts : RpcProxy Client Opt)
      ([] : List (Event Client Conn Err Opt)) := by
  refine ⟨rfl, rfl, fun k c h => ?_⟩
  simp [NewRpcProxy, ClientMap.get] at h

theorem cacheDialed_takeConn (E : Env Ctx Client Conn Err Opt W) (backend : String)
    (opts : List Opt) (p : RpcProxy Client Opt) (ctx : Ctx) (w : W)
    (l : List (Event Client Conn Err Opt)) (h : CacheDialed backend opts p l) :
    CacheDialed backend opts (TakeConn E.traced p ctx (w, l)).2.1
      (TakeConn E.traced p ctx (w, l)).2.2.2 := by
  obtain ⟨hb, ho, hc⟩ := h
  rcases hk : p.clients.get (compositeKey (E.ParseCredential ctx)) with _ | c0
  · rcases hd : (E.NewClient (dialConf p (E.ParseCredential ctx)) p.options w).1 with e | c1
    · rw [traced_log_fail E p ctx w l e hk hd, (traced_takeConn E p ctx w l).2.1,
        takeConn_fail E p ctx w e hk hd]
      refine ⟨hb, ho, fun k c hkc => ?_⟩
      obtain ⟨d, hmem, hkey⟩ := hc k c hkc
      exact ⟨d, List.mem_append_left _ hmem, hkey⟩
    · rw [traced_log_dial E p ctx w l c1 hk hd, (traced_takeConn E p ctx w l).2.1,
        takeConn_dial E p ctx w c1 hk hd]
      refine ⟨hb, ho, fun k c hkc => ?_⟩
      by_cases heq : k = compositeKey (E.ParseCredential ctx)
      · subst heq
        simp only [ClientMap.get, ClientMap.set, if_true, Option.some.injEq] at hkc
        subst hkc
        refine ⟨E.ParseCredential ctx, ?_, rfl⟩
        simp [dialConf, hb, ho]
      · simp only [ClientMap.get, ClientMap.set, heq, if_false] at hkc
        obtain ⟨d, hmem, hkey⟩ := hc k c hkc
        exact ⟨d, List.mem_append_left _ hmem, hkey⟩
  · rw [traced_log_hit E p ctx w l c0 hk, (traced_takeConn E p ctx w l).2.1,
      takeConn_hit E p ctx w c0 hk]
    refine ⟨hb, ho, fun k c hkc => ?_⟩
    obtain ⟨d, hmem, hkey⟩ := hc k c hkc
    exact ⟨d, List.mem_append_left _ hmem, hkey⟩

theorem cacheDialed_takeConns (E : Env Ctx Client Conn Err Opt W) (backend : String)
    (opts : List Opt) :
    ∀ (ctxs : List Ctx) (p : RpcProxy Client Opt) (w : W) (l : List (Event Client Conn Err Opt)),
      CacheDialed backend opts p l →
      CacheDialed backend opts (TakeConns E.traced p ctxs (w, l)).2.1
        (TakeConns E.traced p ctxs (w, l)).2.2.2 := by
  intro ctxs
  induction ctxs with
  | nil => intro p w l h; exact h
  | cons ctx rest ih =>
    intro p w l h
    rw [takeConns_cons]
    exact ih _ (TakeConn E.traced p ctx (w, l)).2.2.1 (TakeConn E.traced p ctx (w, l)).2.2.2
      (cacheDialed_takeConn E backend opts p ctx w l h)

/-- C4. The client cache is meant to be per credential, both fields counting; the code does
not achieve it.  The credentials `("a/b", "c")` and `("a", "b/c")` differ in both fields and
have the same composite key `a/b/c`: on a fresh proxy the call for the second, made after a
call for the first, succeeds on client `0`, the only client ever dialed, and that dial
carried the application id `a/b` and the token `c` of the first credential. -/
theorem callAfter_shared_client :
    (⟨"a/b", "c"⟩ : Credential) ≠ ⟨"a", "b/c"⟩
      ∧ sampleEnv.ParseCredential ⟨"a", "b/c"⟩ = ⟨"a", "b/c"⟩
      ∧ (callAfter sampleEnv "backend" [] [⟨"a/b", "c"⟩] ⟨"a", "b/c"⟩ 0).1 = (some 100, none)
      ∧ (callAfter sampleEnv "backend" [] [⟨"a/b", "c"⟩] ⟨"a", "b/c"⟩ 0).2.2.2
          = [.dial { Server := "backend", App := "a/b", Token := "c" } [] (.ok 0),
             .next 0 (some 100), .next 0 (some 100)] :=
  ⟨by decide, rfl, rfl, rfl⟩

/-- What the cache does guarantee: for every sequence of `TakeConn` calls on a fresh proxy
and every call in it that succeeds, the connection returned was obtained from the client
cached under the composite key of that call's credential, and that client was dialed for the
proxy's backend with an application id and token whose composite key `App + "/" + Token` is
the key of the call's credential; when neither application id contains `/`, they are exactly
the application id and token of the call's credential. -/
theorem callAfter_served_by_keyed_client (E : Env Ctx Client Conn Err Opt W) (backend : String)
    (opts : List Opt) (pre : List Ctx) (ctx : Ctx) (w : W) (conn : Conn)
    (hok : (callAfter E backend opts pre ctx w).1 = (some conn, none)) :
    ∃ (c : Client) (dialed : Credential),
      (callAfter E backend opts pre ctx w).2.1.clients.get (compositeKey (E.ParseCredential ctx))
          = some c
        ∧ (callAfter E backend opts pre ctx w).2.2.2.getLast? = some (.next c (some conn))
        ∧ Event.dial { Server := backend, App := dialed.App, Token := dialed.Token } opts (.ok c)
            ∈ (callAfter E backend opts pre ctx w).2.2.2
        ∧ compositeKey dialed = compositeKey (E.ParseCredential ctx)
        ∧ ('/' ∉ dialed.App.toList → '/' ∉ (E.ParseCredential ctx).App.toList →
            dialed = E.ParseCredential ctx) := by
  have hinv0 := cacheDialed_takeConns E backend opts pre (NewRpcProxy backend opts) w []
    (cacheDialed_new backend opts)
  have hinv := cacheDialed_takeConn E backend opts
    (TakeConns E.traced (NewRpcProxy backend opts) pre (w, [])).2.1 ctx
    (TakeConns E.traced (NewRpcProxy backend opts) pre (w, [])).2.2.1
    (TakeConns E.traced (NewRpcProxy backend opts) pre (w, [])).2.2.2 hinv0
  have hcall : callAfter E backend opts pre ctx w
      = TakeConn E.traced (TakeConns E.traced (NewRpcProxy backend opts) pre (w, [])).2.1 ctx
          ((TakeConns E.traced (NewRpcProxy backend opts) pre (w, [])).2.2.1,
            (TakeConns E.traced (NewRpcProxy backend opts) pre (w, [])).2.2.2) := rfl
  rw [hcall] at hok ⊢
  generalize (TakeConns E.traced (NewRpcProxy backend opts) pre (w, [])).2.1 = p1 at hok hinv ⊢
  generalize (TakeConns E.traced (NewRpcProxy backend opts) pre (w, [])).2.2.1 = w1 at hok hinv ⊢
  generalize (TakeConns E.traced (NewRpcProxy backend opts) pre (w, [])).2.2.2 = l1 at hok hinv ⊢
  have hserved : ∃ c, (TakeConn E.traced p1 ctx (w1, l1)).2.1.clients.get
        (compositeKey (E.ParseCredential ctx)) = some c
      ∧ (TakeConn E.traced p1 ctx (w1, l1)).2.2.2.getLast? = some (.next c (some conn)) := by
    rw [(traced_takeConn E p1 ctx w1 l1).1] at hok
    rw [(traced_takeConn E p1 ctx w1 l1).2.1]
    rcases hk : p1.clients.get (compositeKey (E.ParseCredential ctx)) with _ | c0
    · rcases hd : (E.NewClient (dialConf p1 (E.ParseCredential ctx)) p1.options w1).1 with e | c1
      · rw [takeConn_fail E p1 ctx w1 e hk hd] at hok
        cases hok
      · rw [takeConn_dial E p1 ctx w1 c1 hk hd] at hok
        rw [takeConn_dial E p1 ctx w1 c1 hk hd, traced_log_dial E p1 ctx w1 l1 c1 hk hd]
        refine ⟨c1, by simp [ClientMap.get, ClientMap.set], ?_⟩
        cases hx : (E.Next c1 (E.NewClient (dialConf p1 (E.ParseCredential ctx))
            p1.options w1).2).1 with
        | none => rw [hx] at hok; cases hok
        | some conn2 =>
          rw [hx] at hok
          simp only [connResult, Prod.mk.injEq, Option.some.injEq, and_true] at hok
          subst hok
          simp [List.getLast?_append]
    · rw [takeConn_hit E p1 ctx w1 c0 hk] at hok
      rw [takeConn_hit E p1 ctx w1 c0 hk, traced_log_hit E p1 ctx w1 l1 c0 hk]
      refine ⟨c0, hk, ?_⟩
      cases hx : (E.Next c0 w1).1 with
      | none => rw [hx] at hok; cases hok
      | some conn2 =>
        rw [hx] at hok
        simp only [connResult, Prod.mk.injEq, Option.some.injEq, and_true] at hok
        subst hok
        simp [List.getLast?_append]
  obtain ⟨c, hc, hlast⟩ := hserved
  obtain ⟨_, _, hall⟩ := hinv
  obtain ⟨dialed, hmem, hkey⟩ := hall _ c hc
  exact ⟨c, dialed, hc, hlast, hmem, hkey, fun h1 h2 => compositeKey_inj _ _ h1 h2 hkey⟩

end Sequential

end Rpcx

namespace Rpcx

namespace Concurrent

section Interleaving

variable {Ctx Client Conn Err Opt W : Type}

/-! ## The steps of a caller, case by case -/

@[simp] theorem setPc_ctx (s : Sys Ctx Client Conn Err Opt W) (t u : Nat)
    (pc : Pc Client Conn Err) : ((s.setPc t pc).threads u).ctx = (s.threads u).ctx := by
  unfold Sys.setPc
  by_cases h : u = t
  · simp [h]
  · simp [h]

@[simp] theorem setPc_pc (s : Sys Ctx Client Conn Err Opt W) (t u : Nat)
    (pc : Pc Client Conn Err) :
    ((s.setPc t pc).threads u).pc = if u = t then pc else (s.threads u).pc := by
  unfold Sys.setPc
  by_cases h : u = t
  · simp [h]
  · simp [h]

@[simp] theorem setPc_proxy (s : Sys Ctx Client Conn Err Opt W) (t : Nat)
    (pc : Pc Client Conn Err) : (s.setPc t pc).proxy = s.proxy := rfl

@[simp] theorem setPc_calls (s : Sys Ctx Client Conn Err Opt W) (t : Nat)
    (pc : Pc Client Conn Err) : (s.setPc t pc).calls = s.calls := rfl

@[simp] theorem setPc_results (s : Sys Ctx Client Conn Err Opt W) (t : Nat)
    (pc : Pc Client Conn Err) : (s.setPc t pc).results = s.results := rfl

@[simp] theorem setPc_world (s : Sys Ctx Client Conn Err Opt W) (t : Nat)
    (pc : Pc Client Conn Err) : (s.setPc t pc).world = s.world := rfl

theorem step_start_join (E : Env Ctx Client Conn Err Opt W) (t : Nat)
    (s : Sys Ctx Client Conn Err Opt W) (o : Nat) (hpc : (s.threads t).pc = .start)
    (h : s.calls (s.keyOf E t) = some o) : step E t s = s.setPc t (.waiting o) := by
  unfold Sys.keyOf at h
  simp only [step, hpc, h]

theorem step_start_exec (E : Env Ctx Client Conn Err Opt W) (t : Nat)
    (s : Sys Ctx Client Conn Err Opt W) (hpc : (s.threads t).pc = .start)
    (h : s.calls (s.keyOf E t) = none) :
    step E t s
      = { s.setPc t .check with calls := fun k => if k = s.keyOf E t then some t else s.calls k } := by
  unfold Sys.keyOf at h
  simp only [step, hpc, h]
  rfl

theorem step_wait_blocked (E : Env Ctx Client Conn Err Opt W) (t : Nat)
    (s : Sys Ctx Client Conn Err Opt W) (o : Nat) (hpc : (s.threads t).pc = .waiting o)
    (h : s.results o = none) : step E t s = s := by
  simp only [step, hpc, h]

theorem step_wait_wake (E : Env Ctx Client Conn Err Opt W) (t : Nat)
    (s : Sys Ctx Client Conn Err Opt W) (o : Nat) (res : Except Err Client)
    (hpc : (s.threads t).pc = .waiting o) (h : s.results o = some res) :
    step E t s = s.setPc t (.gotVal res) := by
  simp only [step, hpc, h]

theorem step_check_hit (E : Env Ctx Client Conn Err Opt W) (t : Nat)
    (s : Sys Ctx Client Conn Err Opt W) (c : Client) (hpc : (s.threads t).pc = .check)
    (h : s.proxy.clients.get (s.keyOf E t) = some c) :
    step E t s = s.setPc t (.finish (.ok c)) := by
  unfold Sys.keyOf at h
  simp only [step, hpc, h]

theorem step_check_miss (E : Env Ctx Client Conn Err Opt W) (t : Nat)
    (s : Sys Ctx Client Conn Err Opt W) (hpc : (s.threads t).pc = .check)
    (h : s.proxy.clients.get (s.keyOf E t) = none) : step E t s = s.setPc t .dialing := by
  unfold Sys.keyOf at h
  simp only [step, hpc, h]

theorem step_dial_error (E : Env Ctx Client Conn Err Opt W) (t : Nat)
    (s : Sys Ctx Client Conn Err Opt W) (e : Err) (hpc : (s.threads t).pc = .dialing)
    (h : (E.NewClient (dialConf s.proxy (E.ParseCredential (s.threads t).ctx)) s.proxy.options
      s.world).1 = .error e) :
    step E t s
      = { s.setPc t (.finish (.error e)) with
          world := (E.NewClient (dialConf s.proxy (E.ParseCredential (s.threads t).ctx))
            s.proxy.options s.world).2 } := by
  unfold dialConf at h ⊢
  rcases hx : E.NewClient _ s.proxy.options s.world with ⟨r, w1⟩
  rw [hx] at h
  simp only at h
  subst h
  simp only [step, hpc, hx]

theorem step_dial_ok (E : Env Ctx Client Conn Err Opt W) (t : Nat)
    (s : Sys Ctx Client Conn Err Opt W) (c : Client) (hpc : (s.threads t).pc = .dialing)
    (h : (E.NewClient (dialConf s.proxy (E.ParseCredential (s.threads t).ctx)) s.proxy.options
      s.world).1 = .ok c) :
    step E t s
      = { s.setPc t (.store c) with
          world := (E.NewClient (dialConf s.proxy (E.ParseCredential (s.threads t).ctx))
            s.proxy.options s.world).2 } := by
  unfold dialConf at h ⊢
  rcases hx : E.NewClient _ s.proxy.options s.world with ⟨r, w1⟩
  rw [hx] at h
  simp only at h
  subst h
  simp only [step, hpc, hx]

theorem step_store (E : Env Ctx Client Conn Err Opt W) (t : Nat)
    (s : Sys Ctx Client Conn Err Opt W) (c : Client) (hpc : (s.threads t).pc = .store c) :
    step E t s
      = { s.setPc t (.finish (.ok c)) with
          proxy := { s.proxy with clients := s.proxy.clients.set (s.keyOf E t) c } } := by
  simp only [step, hpc]
  rfl

theorem step_finish (E : Env Ctx Client Conn Err Opt W) (t : Nat)
    (s : Sys Ctx Client Conn Err Opt W) (res : Except Err Client)
    (hpc : (s.threads t).pc = .finish res) :
    step E t s
      = { s.setPc t (.gotVal res) with
          calls := fun k => if k = s.keyOf E t then none else s.calls k
          results := fun u => if u = t then some res else s.results u } := by
  simp only [step, hpc]
  rfl

theorem step_got_error (E : Env Ctx Client Conn Err Opt W) (t : Nat)
    (s : Sys Ctx Client Conn Err Opt W) (e : Err) (hpc : (s.threads t).pc = .gotVal (.error e)) :
    step E t s = s.setPc t (.done (none, some e)) := by
  simp only [step, hpc]

theorem step_got_ok (E : Env Ctx Client Conn Err Opt W) (t : Nat)
    (s : Sys Ctx Client Conn Err Opt W) (c : Client) (hpc : (s.threads t).pc = .gotVal (.ok c)) :
    step E t s
      = { s.setPc t (.done (connResult E (E.Next c s.world).1)) with
          world := (E.Next c s.world).2 } := by
  rcases hx : E.Next c s.world with ⟨_ | conn, w2⟩ <;> simp only [step, hpc, hx, connResult]

theorem step_done (E : Env Ctx Client Conn Err Opt W) (t : Nat)
    (s : Sys Ctx Client Conn Err Opt W) (r : Option Conn × Option Err)
    (hpc : (s.threads t).pc = .done r) : step E t s = s := by
  simp only [step, hpc]

/-! ## The invariant -/

theorem inv_init (E : Env Ctx Client Conn Err Opt W) (backend : String) (opts : List Opt)
    (ctxs : Nat → Ctx) (w : W) :
    Inv E (Sys.init backend opts ctxs w : Sys Ctx Client Conn Err Opt W) := by
  constructor <;> intros <;> simp_all [Sys.init, Pc.isExec, Pc.isBuilding, NewRpcProxy, ClientMap.get]

theorem inv_world (E : Env Ctx Client Conn Err Opt W) (s : Sys Ctx Client Conn Err Opt W)
    (w : W) (h : Inv E s) : Inv E { s with world := w } :=
  ⟨h.owner, h.callKey, h.fresh, h.finished, h.got, h.resolved, h.waitKey⟩

/-- A step that only moves caller `t` keeps the invariant when the new position is justified
by the state. -/
theorem inv_setPc (E : Env Ctx Client Conn Err Opt W) (s : Sys Ctx Client Conn Err Opt W)
    (t : Nat) (pc : Pc Client Conn Err) (h : Inv E s)
    (h1 : pc.isExec = true → s.calls (s.keyOf E t) = some t)
    (h2 : pc.isBuilding = true → s.proxy.clients.get (s.keyOf E t) = none)
    (h3 : ∀ c, pc = .finish (.ok c) → s.proxy.clients.get (s.keyOf E t) = some c)
    (h4 : ∀ c, pc = .gotVal (.ok c) → s.proxy.clients.get (s.keyOf E t) = some c)
    (h5 : ∀ u, pc = .waiting u → s.keyOf E u = s.keyOf E t) :
    Inv E (s.setPc t pc) := by
  have hk : ∀ u, (s.setPc t pc).keyOf E u = s.keyOf E u := by
    intro u; simp [Sys.keyOf]
  constructor
  · intro u hu
    rw [hk]
    by_cases hut : u = t
    · subst hut
      simp only [setPc_pc, if_true] at hu
      simpa using h1 hu
    · simp only [setPc_pc, hut, if_false] at hu
      simpa using h.owner u hu
  · intro k u hu
    rw [hk]
    exact h.callKey k u (by simpa using hu)
  · intro u hu
    rw [hk]
    by_cases hut : u = t
    · subst hut
      simp only [setPc_pc, if_true] at hu
      simpa using h2 hu
    · simp only [setPc_pc, hut, if_false] at hu
      simpa using h.fresh u hu
  · intro u c hu
    rw [hk]
    by_cases hut : u = t
    · subst hut
      simp only [setPc_pc, if_true] at hu
      simpa using h3 c hu
    · simp only [setPc_pc, hut, if_false] at hu
      simpa using h.finished u c hu
  · intro u c hu
    rw [hk]
    by_cases hut : u = t
    · subst hut
      simp only [setPc_pc, if_true] at hu
      simpa using h4 c hu
    · simp only [setPc_pc, hut, if_false] at hu
      simpa using h.got u c hu
  · intro u c hu
    rw [hk]
    simpa using h.resolved u c (by simpa using hu)
  · intro u o hu
    rw [hk, hk]
    by_cases hut : u = t
    · subst hut
      simp only [setPc_pc, if_true] at hu
      exact h5 o hu
    · simp only [setPc_pc, hut, if_false] at hu
      exact h.waitKey u o hu

theorem isExec_of_isBuilding (pc : Pc Client Conn Err) (h : pc.isBuilding = true) :
    pc.isExec = true := by
  cases pc <;> simp_all [Pc.isBuilding, Pc.isExec]

/-- Two executors with the same key are the same caller. -/
theorem inv_owner_unique (E : Env Ctx Client Conn Err Opt W)
    (s : Sys Ctx Client Conn Err Opt W) (h : Inv E s) (t u : Nat)
    (ht : (s.threads t).pc.isExec = true) (hu : (s.threads u).pc.isExec = true)
    (hk : s.keyOf E u = s.keyOf E t) : u = t := by
  have h1 := h.owner t ht
  have h2 := h.owner u hu
  rw [hk, h1] at h2
  exact (Option.some.inj h2).symm

theorem inv_start_exec (E : Env Ctx Client Conn Err Opt W) (s : Sys Ctx Client Conn Err Opt W)
    (t : Nat) (h : Inv E s) (hc : s.calls (s.keyOf E t) = none) :
    Inv E { s.setPc t .check with
            calls := fun k => if k = s.keyOf E t then some t else s.calls k } := by
  constructor
  · intro u hu
    by_cases hut : u = t
    · subst hut
      simp [Sys.keyOf]
    · simp only [setPc_pc, hut, if_false] at hu
      have h1 := h.owner u hu
      have hne : s.keyOf E u ≠ s.keyOf E t := by
        intro heq
        rw [heq, hc] at h1
        cases h1
      unfold Sys.keyOf at hne
      simpa [Sys.keyOf, hne] using h1
  · intro k u hu
    by_cases hk : k = s.keyOf E t
    · simp only [hk, if_true, Option.some.injEq] at hu
      subst hu
      simp [Sys.keyOf, hk]
    · simp only [hk, if_false] at hu
      simpa [Sys.keyOf] using h.callKey k u hu
  · intro u hu
    by_cases hut : u = t
    · subst hut
      simp [Pc.isBuilding] at hu
    · simp only [setPc_pc, hut, if_false] at hu
      simpa [Sys.keyOf] using h.fresh u hu
  · intro u c hu
    by_cases hut : u = t
    · subst hut
      simp at hu
    · simp only [setPc_pc, hut, if_false] at hu
      simpa [Sys.keyOf] using h.finished u c hu
  · intro u c hu
    by_cases hut : u = t
    · subst hut
      simp at hu
    · simp only [setPc_pc, hut, if_false] at hu
      simpa [Sys.keyOf] using h.got u c hu
  · intro u c hu
    simpa [Sys.keyOf] using h.resolved u c hu
  · intro u o hu
    by_cases hut : u = t
    · subst hut
      simp at hu
    · simp only [setPc_pc, hut, if_false] at hu
      simpa [Sys.keyOf] using h.waitKey u o hu

theorem inv_store (E : Env Ctx Client Conn Err Opt W) (s : Sys Ctx Client Conn Err Opt W)
    (t : Nat) (c : Client) (h : Inv E s) (hpc : (s.threads t).pc = .store c) :
    Inv E { s.setPc t (.finish (.ok c)) with
            proxy := { s.proxy with clients := s.proxy.clients.set (s.keyOf E t) c } } := by
  have hex : (s.threads t).pc.isExec = true := by rw [hpc]; rfl
  have hnone : s.proxy.clients.get (s.keyOf E t) = none := h.fresh t (by rw [hpc]; rfl)
  have hkeep : ∀ k c2, s.proxy.clients.get k = some c2 →
      (s.proxy.clients.set (s.keyOf E t) c).get k = some c2 := by
    intro k c2 hk
    have hne : k ≠ s.keyOf E t := by
      intro heq
      rw [heq, hnone] at hk
      cases hk
    simpa [ClientMap.get, ClientMap.set, hne] using hk
  constructor
  · intro u hu
    by_cases hut : u = t
    · subst hut
      simpa [Sys.keyOf] using h.owner u hex
    · simp only [setPc_pc, hut, if_false] at hu
      simpa [Sys.keyOf] using h.owner u hu
  · intro k u hu
    simpa [Sys.keyOf] using h.callKey k u hu
  · intro u hu
    by_cases hut : u = t
    · subst hut
      simp [Pc.isBuilding] at hu
    · simp only [setPc_pc, hut, if_false] at hu
      have hne : s.keyOf E u ≠ s.keyOf E t := fun heq =>
        hut (inv_owner_unique E s h t u hex (isExec_of_isBuilding _ hu) heq)
      have := h.fresh u hu
      unfold Sys.keyOf at hne
      simpa [Sys.keyOf, ClientMap.get, ClientMap.set, hne] using this
  · intro u c2 hu
    by_cases hut : u = t
    · subst hut
      simp only [setPc_pc, if_true, Pc.finish.injEq, Except.ok.injEq] at hu
      subst hu
      simp [Sys.keyOf, ClientMap.get, ClientMap.set]
    · simp only [setPc_pc, hut, if_false] at hu
      simpa [Sys.keyOf] using hkeep _ c2 (h.finished u c2 hu)
  · intro u c2 hu
    by_cases hut : u = t
    · subst hut
      simp at hu
    · simp only [setPc_pc, hut, if_false] at hu
      simpa [Sys.keyOf] using hkeep _ c2 (h.got u c2 hu)
  · intro u c2 hu
    simpa [Sys.keyOf] using hkeep _ c2 (h.resolved u c2 hu)
  · intro u o hu
    by_cases hut : u = t
    · subst hut
      simp at hu
    · simp only [setPc_pc, hut, if_false] at hu
      simpa [Sys.keyOf] using h.waitKey u o hu

theorem inv_finish (E : Env Ctx Client Conn Err Opt W) (s : Sys Ctx Client Conn Err Opt W)
    (t : Nat) (res : Except Err Client) (h : Inv E s) (hpc : (s.threads t).pc = .finish res) :
    Inv E { s.setPc t (.gotVal res) with
            calls := fun k => if k = s.keyOf E t then none else s.calls k
            results := fun u => if u = t then some res else s.results u } := by
  have hex : (s.threads t).pc.isExec = true := by rw [hpc]; rfl
  constructor
  · intro u hu
    by_cases hut : u = t
    · subst hut
      simp [Pc.isExec] at hu
    · simp only [setPc_pc, hut, if_false] at hu
      have hne : s.keyOf E u ≠ s.keyOf E t := fun heq =>
        hut (inv_owner_unique E s h t u hex hu heq)
      unfold Sys.keyOf at hne
      simpa [Sys.keyOf, hne] using h.owner u hu
  · intro k u hu
    by_cases hk : k = s.keyOf E t
    · simp [hk] at hu
    · simp only [hk, if_false] at hu
      simpa [Sys.keyOf] using h.callKey k u hu
  · intro u hu
    by_cases hut : u = t
    · subst hut
      simp [Pc.isBuilding] at hu
    · simp only [setPc_pc, hut, if_false] at hu
      simpa [Sys.keyOf] using h.fresh u hu
  · intro u c hu
    by_cases hut : u = t
    · subst hut
      simp at hu
    · simp only [setPc_pc, hut, if_false] at hu
      simpa [Sys.keyOf] using h.finished u c hu
  · intro u c hu
    by_cases hut : u = t
    · subst hut
      simp only [setPc_pc, if_true, Pc.gotVal.injEq] at hu
      subst hu
      simpa [Sys.keyOf] using h.finished u c hpc
    · simp only [setPc_pc, hut, if_false] at hu
      simpa [Sys.keyOf] using h.got u c hu
  · intro u c hu
    by_cases hut : u = t
    · subst hut
      simp only [if_true, Option.some.injEq] at hu
      subst hu
      simpa [Sys.keyOf] using h.finished u c hpc
    · simp only [hut, if_false] at hu
      simpa [Sys.keyOf] using h.resolved u c hu
  · intro u o hu
    by_cases hut : u = t
    · subst hut
      simp at hu
    · simp only [setPc_pc, hut, if_false] at hu
      simpa [Sys.keyOf] using h.waitKey u o hu

/-- Every step keeps the invariant. -/
theorem inv_step (E : Env Ctx Client Conn Err Opt W) (s : Sys Ctx Client Conn Err Opt W)
    (t : Nat) (h : Inv E s) : Inv E (step E t s) := by
  rcases hpc : (s.threads t).pc with _ | o | _ | _ | c | res | res | r
  · rcases hc : s.calls (s.keyOf E t) with _ | o
    · rw [step_start_exec E t s hpc hc]
      exact inv_start_exec E s t h hc
    · rw [step_start_join E t s o hpc hc]
      refine inv_setPc E s t _ h (by simp [Pc.isExec]) (by simp [Pc.isBuilding]) (by simp)
        (by simp) ?_
      intro u hu
      simp only [Pc.waiting.injEq] at hu
      subst hu
      exact h.callKey _ _ hc
  · rcases hr : s.results o with _ | res
    · rw [step_wait_blocked E t s o hpc hr]
      exact h
    · rw [step_wait_wake E t s o res hpc hr]
      refine inv_setPc E s t _ h (by simp [Pc.isExec]) (by simp [Pc.isBuilding]) (by simp)
        ?_ (by simp)
      intro c hc
      simp only [Pc.gotVal.injEq] at hc
      subst hc
      rw [← h.waitKey t o hpc]
      exact h.resolved o c hr
  · have hown := h.owner t (by rw [hpc]; rfl)
    rcases hc : s.proxy.clients.get (s.keyOf E t) with _ | c
    · rw [step_check_miss E t s hpc hc]
      exact inv_setPc E s t _ h (fun _ => hown) (fun _ => hc) (by simp) (by simp) (by simp)
    · rw [step_check_hit E t s c hpc hc]
      refine inv_setPc E s t _ h (fun _ => hown) (by simp [Pc.isBuilding]) ?_ (by simp)
        (by simp)
      intro c2 hc2
      simp only [Pc.finish.injEq, Except.ok.injEq] at hc2
      subst hc2
      exact hc
  · have hown := h.owner t (by rw [hpc]; rfl)
    have hfresh := h.fresh t (by rw [hpc]; rfl)
    rcases hd : (E.NewClient (dialConf s.proxy (E.ParseCredential (s.threads t).ctx))
        s.proxy.options s.world).1 with e | c
    · rw [step_dial_error E t s e hpc hd]
      exact inv_world E _ _ (inv_setPc E s t _ h (fun _ => hown) (by simp [Pc.isBuilding])
        (by simp) (by simp) (by simp))
    · rw [step_dial_ok E t s c hpc hd]
      exact inv_world E _ _ (inv_setPc E s t _ h (fun _ => hown) (fun _ => hfresh)
        (by simp) (by simp) (by simp))
  · rw [step_store E t s c hpc]
    exact inv_store E s t c h hpc
  · rw [step_finish E t s res hpc]
    exact inv_finish E s t res h hpc
  · rcases res with e | c
    · rw [step_got_error E t s e hpc]
      exact inv_setPc E s t _ h (by simp [Pc.isExec]) (by simp [Pc.isBuilding]) (by simp)
        (by simp) (by simp)
    · rw [step_got_ok E t s c hpc]
      exact inv_world E _ _ (inv_setPc E s t _ h (by simp [Pc.isExec]) (by simp [Pc.isBuilding])
        (by simp) (by simp) (by simp))
  · rw [step_done E t s r hpc]
    exact h

theorem inv_run (E : Env Ctx Client Conn Err Opt W) :
    ∀ (sched : List Nat) (s : Sys Ctx Client Conn Err Opt W), Inv E s → Inv E (run E sched s) := by
  intro sched
  induction sched with
  | nil => intro s h; exact h
  | cons t rest ih => intro s h; exact ih _ (inv_step E s t h)

theorem step_keyOf (E : Env Ctx Client Conn Err Opt W) (s : Sys Ctx Client Conn Err Opt W)
    (t u : Nat) : (step E t s).keyOf E u = s.keyOf E u := by
  rcases hpc : (s.threads t).pc with _ | o | _ | _ | c | res | res | r
  · rcases hc : s.calls (s.keyOf E t) with _ | o
    · rw [step_start_exec E t s hpc hc]; simp [Sys.keyOf]
    · rw [step_start_join E t s o hpc hc]; simp [Sys.keyOf]
  · rcases hr : s.results o with _ | res
    · rw [step_wait_blocked E t s o hpc hr]
    · rw [step_wait_wake E t s o res hpc hr]; simp [Sys.keyOf]
  · rcases hc : s.proxy.clients.get (s.keyOf E t) with _ | c
    · rw [step_check_miss E t s hpc hc]; simp [Sys.keyOf]
    · rw [step_check_hit E t s c hpc hc]; simp [Sys.keyOf]
  · rcases hd : (E.NewClient (dialConf s.proxy (E.ParseCredential (s.threads t).ctx))
        s.proxy.options s.world).1 with e | c
    · rw [step_dial_error E t s e hpc hd]; simp [Sys.keyOf]
    · rw [step_dial_ok E t s c hpc hd]; simp [Sys.keyOf]
  · rw [step_store E t s c hpc]; simp [Sys.keyOf]
  · rw [step_finish E t s res hpc]; simp [Sys.keyOf]
  · rcases res with e | c
    · rw [step_got_error E t s e hpc]; simp [Sys.keyOf]
    · rw [step_got_ok E t s c hpc]; simp [Sys.keyOf]
  · rw [step_done E t s r hpc]

theorem run_keyOf (E : Env Ctx Client Conn Err Opt W) :
    ∀ (sched : List Nat) (s : Sys Ctx Client Conn Err Opt W) (u : Nat),
      (run E sched s).keyOf E u = s.keyOf E u := by
  intro sched
  induction sched with
  | nil => intro s u; rfl
  | cons t rest ih =>
    intro s u
    show (run E rest (step E t s)).keyOf E u = _
    rw [ih, step_keyOf]

/-- A cached client stays cached under its key through every step. -/
theorem step_clients_stable (E : Env Ctx Client Conn Err Opt W)
    (s : Sys Ctx Client Conn Err Opt W) (t : Nat) (h : Inv E s) (k : String) (c : Client)
    (hk : s.proxy.clients.get k = some c) : (step E t s).proxy.clients.get k = some c := by
  rcases hpc : (s.threads t).pc with _ | o | _ | _ | c2 | res | res | r
  · rcases hc : s.calls (s.keyOf E t) with _ | o
    · rw [step_start_exec E t s hpc hc]; exact hk
    · rw [step_start_join E t s o hpc hc]; exact hk
  · rcases hr : s.results o with _ | res
    · rw [step_wait_blocked E t s o hpc hr]; exact hk
    · rw [step_wait_wake E t s o res hpc hr]; exact hk
  · rcases hc : s.proxy.clients.get (s.keyOf E t) with _ | c3
    · rw [step_check_miss E t s hpc hc]; exact hk
    · rw [step_check_hit E t s c3 hpc hc]; exact hk
  · rcases hd : (E.NewClient (dialConf s.proxy (E.ParseCredential (s.threads t).ctx))
        s.proxy.options s.world).1 with e | c3
    · rw [step_dial_error E t s e hpc hd]; exact hk
    · rw [step_dial_ok E t s c3 hpc hd]; exact hk
  · rw [step_store E t s c2 hpc]
    have hnone := h.fresh t (by rw [hpc]; rfl)
    have hne : k ≠ s.keyOf E t := by
      intro heq
      rw [heq, hnone] at hk
      cases hk
    simpa [ClientMap.get, ClientMap.set, hne] using hk
  · rw [step_finish E t s res hpc]; exact hk
  · rcases res with e | c3
    · rw [step_got_error E t s e hpc]; exact hk
    · rw [step_got_ok E t s c3 hpc]; exact hk
  · rw [step_done E t s r hpc]; exact hk

theorem run_clients_stable (E : Env Ctx Client Conn Err Opt W) :
    ∀ (sched : List Nat) (s : Sys Ctx Client Conn Err Opt W), Inv E s →
      ∀ (k : String) (c : Client), s.proxy.clients.get k = some c →
        (run E sched s).proxy.clients.get k = some c := by
  intro sched
  induction sched with
  | nil => intro s _ k c hk; exact hk
  | cons t rest ih =>
    intro s h k c hk
    exact ih _ (inv_step E s t h) k c (step_clients_stable E s t h k c hk)

/-! ## The second invariant -/

theorem inv2_init (E : Env Ctx Client Conn Err Opt W) (backend : String) (opts : List Opt)
    (ctxs : Nat → Ctx) (w : W) :
    Inv2 E (Sys.init backend opts ctxs w : Sys Ctx Client Conn Err Opt W) := by
  constructor <;> intros <;> simp_all [Sys.init, Pc.isExec, NewRpcProxy, ClientMap.get]

theorem inv2_world (E : Env Ctx Client Conn Err Opt W) (s : Sys Ctx Client Conn Err Opt W)
    (w : W) (h : Inv2 E s) : Inv2 E { s with world := w } :=
  ⟨h.callExec, h.execFresh, h.startFresh, h.failedFresh⟩

theorem inv2_setPc (E : Env Ctx Client Conn Err Opt W) (s : Sys Ctx Client Conn Err Opt W)
    (t : Nat) (pc : Pc Client Conn Err) (h : Inv2 E s)
    (h1 : pc.isExec = true ∨ (s.threads t).pc.isExec = false)
    (h2 : pc.isExec = true → s.results t = none)
    (h3 : pc ≠ .start)
    (h4 : ∀ e, pc = .finish (.error e) → s.proxy.clients.get (s.keyOf E t) = none) :
    Inv2 E (s.setPc t pc) := by
  constructor
  · intro k u hu
    have hold := h.callExec k u (by simpa using hu)
    by_cases hut : u = t
    · subst hut
      simp only [setPc_pc, if_true]
      rcases h1 with h1 | h1
      · exact h1
      · rw [h1] at hold
        cases hold
    · simpa [hut] using hold
  · intro u hu
    by_cases hut : u = t
    · subst hut
      simp only [setPc_pc, if_true] at hu
      simpa using h2 hu
    · simp only [setPc_pc, hut, if_false] at hu
      simpa using h.execFresh u hu
  · intro u hu
    by_cases hut : u = t
    · subst hut
      simp only [setPc_pc, if_true] at hu
      exact absurd hu h3
    · simp only [setPc_pc, hut, if_false] at hu
      simpa using h.startFresh u hu
  · intro u e hu
    by_cases hut : u = t
    · subst hut
      simp only [setPc_pc, if_true] at hu
      simpa [Sys.keyOf] using h4 e hu
    · simp only [setPc_pc, hut, if_false] at hu
      simpa [Sys.keyOf] using h.failedFresh u e hu

theorem inv2_start_exec (E : Env Ctx Client Conn Err Opt W)
    (s : Sys Ctx Client Conn Err Opt W) (t : Nat) (h : Inv2 E s)
    (hpc : (s.threads t).pc = .start) :
    Inv2 E { s.setPc t .check with
             calls := fun k => if k = s.keyOf E t then some t else s.calls k } := by
  constructor
  · intro k u hu
    by_cases hk : k = s.keyOf E t
    · simp only [hk, if_true, Option.some.injEq] at hu
      subst hu
      simp [Pc.isExec]
    · simp only [hk, if_false] at hu
      have hold := h.callExec k u hu
      have hut : u ≠ t := by
        intro heq
        subst heq
        rw [hpc] at hold
        cases hold
      simpa [hut] using hold
  · intro u hu
    by_cases hut : u = t
    · subst hut
      simpa using h.startFresh u hpc
    · simp only [setPc_pc, hut, if_false] at hu
      simpa using h.execFresh u hu
  · intro u hu
    by_cases hut : u = t
    · subst hut
      simp at hu
    · simp only [setPc_pc, hut, if_false] at hu
      simpa using h.startFresh u hu
  · intro u e hu
    by_cases hut : u = t
    · subst hut
      simp at hu
    · simp only [setPc_pc, hut, if_false] at hu
      simpa [Sys.keyOf] using h.failedFresh u e hu

theorem inv2_store (E : Env Ctx Client Conn Err Opt W) (s : Sys Ctx Client Conn Err Opt W)
    (t : Nat) (c : Client) (hinv : Inv E s) (h : Inv2 E s)
    (hpc : (s.threads t).pc = .store c) :
    Inv2 E { s.setPc t (.finish (.ok c)) with
             proxy := { s.proxy with clients := s.proxy.clients.set (s.keyOf E t) c } } := by
  have hex : (s.threads t).pc.isExec = true := by rw [hpc]; rfl
  constructor
  · intro k u hu
    have hold := h.callExec k u hu
    by_cases hut : u = t
    · subst hut
      simp [Pc.isExec]
    · simpa [hut] using hold
  · intro u hu
    by_cases hut : u = t
    · subst hut
      simpa using h.execFresh u hex
    · simp only [setPc_pc, hut, if_false] at hu
      simpa using h.execFresh u hu
  · intro u hu
    by_cases hut : u = t
    · subst hut
      simp at hu
    · simp only [setPc_pc, hut, if_false] at hu
      simpa using h.startFresh u hu
  · intro u e hu
    by_cases hut : u = t
    · subst hut
      simp at hu
    · simp only [setPc_pc, hut, if_false] at hu
      have hne : s.keyOf E u ≠ s.keyOf E t := fun heq =>
        hut (inv_owner_unique E s hinv t u hex (by rw [hu]; rfl) heq)
      have := h.failedFresh u e hu
      unfold Sys.keyOf at hne
      simpa [Sys.keyOf, ClientMap.get, ClientMap.set, hne] using this

theorem inv2_finish (E : Env Ctx Client Conn Err Opt W) (s : Sys Ctx Client Conn Err Opt W)
    (t : Nat) (res : Except Err Client) (hinv : Inv E s) (h : Inv2 E s) :
    Inv2 E { s.setPc t (.gotVal res) with
             calls := fun k => if k = s.keyOf E t then none else s.calls k
             results := fun u => if u = t then some res else s.results u } := by
  constructor
  · intro k u hu
    by_cases hk : k = s.keyOf E t
    · simp [hk] at hu
    · simp only [hk, if_false] at hu
      have hold := h.callExec k u hu
      have hut : u ≠ t := by
        intro heq
        subst heq
        exact hk (hinv.callKey k u hu).symm
      simpa [hut] using hold
  · intro u hu
    by_cases hut : u = t
    · subst hut
      simp [Pc.isExec] at hu
    · simp only [setPc_pc, hut, if_false] at hu
      simpa [hut] using h.execFresh u hu
  · intro u hu
    by_cases hut : u = t
    · subst hut
      simp at hu
    · simp only [setPc_pc, hut, if_false] at hu
      simpa [hut] using h.startFresh u hu
  · intro u e hu
    by_cases hut : u = t
    · subst hut
      simp at hu
    · simp only [setPc_pc, hut, if_false] at hu
      simpa [Sys.keyOf] using h.failedFresh u e hu

/-- Every step keeps the second invariant. -/
theorem inv2_step (E : Env Ctx Client Conn Err Opt W) (s : Sys Ctx Client Conn Err Opt W)
    (t : Nat) (hinv : Inv E s) (h : Inv2 E s) : Inv2 E (step E t s) := by
  rcases hpc : (s.threads t).pc with _ | o | _ | _ | c | res | res | r
  · rcases hc : s.calls (s.keyOf E t) with _ | o
    · rw [step_start_exec E t s hpc hc]
      exact inv2_start_exec E s t h hpc
    · rw [step_start_join E t s o hpc hc]
      exact inv2_setPc E s t _ h (Or.inr (by rw [hpc]; rfl)) (by simp [Pc.isExec]) (by simp)
        (by simp)
  · rcases hr : s.results o with _ | res
    · rw [step_wait_blocked E t s o hpc hr]
      exact h
    · rw [step_wait_wake E t s o res hpc hr]
      exact inv2_setPc E s t _ h (Or.inr (by rw [hpc]; rfl)) (by simp [Pc.isExec]) (by simp)
        (by simp)
  · have hfr := h.execFresh t (by rw [hpc]; rfl)
    rcases hc : s.proxy.clients.get (s.keyOf E t) with _ | c
    · rw [step_check_miss E t s hpc hc]
      exact inv2_setPc E s t _ h (Or.inl rfl) (fun _ => hfr) (by simp) (by simp)
    · rw [step_check_hit E t s c hpc hc]
      exact inv2_setPc E s t _ h (Or.inl rfl) (fun _ => hfr) (by simp) (by simp)
  · have hfr := h.execFresh t (by rw [hpc]; rfl)
    have hfresh := hinv.fresh t (by rw [hpc]; rfl)
    rcases hd : (E.NewClient (dialConf s.proxy (E.ParseCredential (s.threads t).ctx))
        s.proxy.options s.world).1 with e | c
    · rw [step_dial_error E t s e hpc hd]
      exact inv2_world E _ _ (inv2_setPc E s t _ h (Or.inl rfl) (fun _ => hfr) (by simp)
        (fun _ _ => hfresh))
    · rw [step_dial_ok E t s c hpc hd]
      exact inv2_world E _ _ (inv2_setPc E s t _ h (Or.inl rfl) (fun _ => hfr) (by simp)
        (by simp))
  · rw [step_store E t s c hpc]
    exact inv2_store E s t c hinv h hpc
  · rw [step_finish E t s res hpc]
    exact inv2_finish E s t res hinv h
  · rcases res with e | c
    · rw [step_got_error E t s e hpc]
      exact inv2_setPc E s t _ h (Or.inr (by rw [hpc]; rfl)) (by simp [Pc.isExec]) (by simp)
        (by simp)
    · rw [step_got_ok E t s c hpc]
      exact inv2_world E _ _ (inv2_setPc E s t _ h (Or.inr (by rw [hpc]; rfl))
        (by simp [Pc.isExec]) (by simp) (by simp))
  · rw [step_done E t s r hpc]
    exact h

theorem inv2_run (E : Env Ctx Client Conn Err Opt W) :
    ∀ (sched : List Nat) (s : Sys Ctx Client Conn Err Opt W), Inv E s → Inv2 E s →
      Inv2 E (run E sched s) := by
  intro sched
  induction sched with
  | nil => intro s _ h; exact h
  | cons t rest ih => intro s hinv h; exact ih _ (inv_step E s t hinv) (inv2_step E s t hinv h)

/-! ## Callers that arrive after a client is stored -/

/-- A step of caller `u` leaves the other callers where they stand. -/
theorem step_pc_other (E : Env Ctx Client Conn Err Opt W) (s : Sys Ctx Client Conn Err Opt W)
    (u t : Nat) (h : t ≠ u) : ((step E u s).threads t).pc = (s.threads t).pc := by
  rcases hpc : (s.threads u).pc with _ | o | _ | _ | c | res | res | r
  · rcases hc : s.calls (s.keyOf E u) with _ | o
    · rw [step_start_exec E u s hpc hc]; simp [h]
    · rw [step_start_join E u s o hpc hc]; simp [h]
  · rcases hr : s.results o with _ | res
    · rw [step_wait_blocked E u s o hpc hr]
    · rw [step_wait_wake E u s o res hpc hr]; simp [h]
  · rcases hc : s.proxy.clients.get (s.keyOf E u) with _ | c
    · rw [step_check_miss E u s hpc hc]; simp [h]
    · rw [step_check_hit E u s c hpc hc]; simp [h]
  · rcases hd : (E.NewClient (dialConf s.proxy (E.ParseCredential (s.threads u).ctx))
        s.proxy.options s.world).1 with e | c
    · rw [step_dial_error E u s e hpc hd]; simp [h]
    · rw [step_dial_ok E u s c hpc hd]; simp [h]
  · rw [step_store E u s c hpc]; simp [h]
  · rw [step_finish E u s res hpc]; simp [h]
  · rcases res with e | c
    · rw [step_got_error E u s e hpc]; simp [h]
    · rw [step_got_ok E u s c hpc]; simp [h]
  · rw [step_done E u s r hpc]

/-- Only the step that completes a call writes a result, and it writes the result of the
caller that takes it. -/
theorem step_results (E : Env Ctx Client Conn Err Opt W) (s : Sys Ctx Client Conn Err Opt W)
    (u o : Nat) (h : o ≠ u ∨ ∀ res, (s.threads u).pc ≠ .finish res) :
    (step E u s).results o = s.results o := by
  rcases hpc : (s.threads u).pc with _ | o2 | _ | _ | c | res | res | r
  · rcases hc : s.calls (s.keyOf E u) with _ | o2
    · rw [step_start_exec E u s hpc hc]; rfl
    · rw [step_start_join E u s o2 hpc hc]; rfl
  · rcases hr : s.results o2 with _ | res
    · rw [step_wait_blocked E u s o2 hpc hr]
    · rw [step_wait_wake E u s o2 res hpc hr]; rfl
  · rcases hc : s.proxy.clients.get (s.keyOf E u) with _ | c
    · rw [step_check_miss E u s hpc hc]; rfl
    · rw [step_check_hit E u s c hpc hc]; rfl
  · rcases hd : (E.NewClient (dialConf s.proxy (E.ParseCredential (s.threads u).ctx))
        s.proxy.options s.world).1 with e | c
    · rw [step_dial_error E u s e hpc hd]; rfl
    · rw [step_dial_ok E u s c hpc hd]; rfl
  · rw [step_store E u s c hpc]; rfl
  · rw [step_finish E u s res hpc]
    rcases h with h | h
    · simp [h]
    · exact absurd hpc (h res)
  · rcases res with e | c
    · rw [step_got_error E u s e hpc]; rfl
    · rw [step_got_ok E u s c hpc]; rfl
  · rw [step_done E u s r hpc]

/-- An executor whose key has client `c` cached is before the cache read or holds `c`. -/
theorem exec_of_cached (E : Env Ctx Client Conn Err Opt W) (s : Sys Ctx Client Conn Err Opt W)
    (hinv : Inv E s) (hinv2 : Inv2 E s) (o : Nat) (c : Client)
    (hc : s.proxy.clients.get (s.keyOf E o) = some c)
    (hex : (s.threads o).pc.isExec = true) :
    (s.threads o).pc = .check ∨ (s.threads o).pc = .finish (.ok c) := by
  rcases hpc : (s.threads o).pc with _ | o2 | _ | _ | c2 | res | res | r
  · rw [hpc] at hex; cases hex
  · rw [hpc] at hex; cases hex
  · exact Or.inl rfl
  · have := hinv.fresh o (by rw [hpc]; rfl)
    rw [hc] at this
    cases this
  · have := hinv.fresh o (by rw [hpc]; rfl)
    rw [hc] at this
    cases this
  · rcases res with e | c2
    · have := hinv2.failedFresh o e hpc
      rw [hc] at this
      cases this
    · have := hinv.finished o c2 hpc
      rw [hc] at this
      cases this
      exact Or.inr rfl
  · rw [hpc] at hex; cases hex
  · rw [hpc] at hex; cases hex

/-- Being served by the stored client is kept by every step of every caller. -/
theorem served_step (E : Env Ctx Client Conn Err Opt W) (s : Sys Ctx Client Conn Err Opt W)
    (hinv : Inv E s) (hinv2 : Inv2 E s) (t : Nat) (c : Client)
    (hc : s.proxy.clients.get (s.keyOf E t) = some c) (hs : Served E c t s) (u : Nat) :
    Served E c t (step E u s) := by
  by_cases hut : u = t
  · subst hut
    rcases hpc : (s.threads u).pc with _ | o | _ | _ | c2 | res | res | r
    · rcases hcall : s.calls (s.keyOf E u) with _ | o
      · rw [step_start_exec E u s hpc hcall]
        simp [Served]
      · rw [step_start_join E u s o hpc hcall]
        have hex := hinv2.callExec _ o hcall
        have hou : o ≠ u := by
          intro heq
          subst heq
          rw [hpc] at hex
          cases hex
        simp only [Served, setPc_pc, if_true, setPc_results, hou, if_false]
        exact Or.inr ⟨hinv2.execFresh o hex, hex⟩
    · simp only [Served, hpc] at hs
      rcases hr : s.results o with _ | res
      · rw [step_wait_blocked E u s o hpc hr]
        simp only [Served, hpc]
        exact hs
      · rw [step_wait_wake E u s o res hpc hr]
        simp only [Served, setPc_pc, if_true]
        rcases hs with hs | hs
        · rw [hr] at hs
          exact Option.some.inj hs
        · rw [hr] at hs
          cases hs.1
    · rcases hcl : s.proxy.clients.get (s.keyOf E u) with _ | c2
      · rw [hc] at hcl
        cases hcl
      · rw [step_check_hit E u s c2 hpc hcl]
        rw [hc] at hcl
        cases hcl
        simp [Served]
    · simp [Served, hpc] at hs
    · simp [Served, hpc] at hs
    · simp only [Served, hpc] at hs
      rw [step_finish E u s res hpc]
      simp only [Served, setPc_pc, if_true]
      exact hs
    · simp only [Served, hpc] at hs
      subst hs
      rw [step_got_ok E u s c hpc]
      simp only [Served, setPc_pc, if_true]
      exact ⟨s.world, rfl⟩
    · rw [step_done E u s r hpc]
      exact hs
  · have hpct : ((step E u s).threads t).pc = (s.threads t).pc :=
      step_pc_other E s u t (fun h => hut h.symm)
    rcases hpc : (s.threads t).pc with _ | o | _ | _ | c2 | res | res | r
    · simp [Served, hpct, hpc]
    · simp only [Served, hpc] at hs
      simp only [Served, hpct, hpc]
      have hko : s.keyOf E o = s.keyOf E t := hinv.waitKey t o hpc
      by_cases hou : o = u
      · subst hou
        rcases hs with hs | ⟨hs, hex⟩
        · left
          rw [step_results E s o o (Or.inr ?_)]
          · exact hs
          · intro res hres
            have := hinv2.execFresh o (by rw [hres]; rfl)
            rw [hs] at this
            cases this
        · rcases exec_of_cached E s hinv hinv2 o c (by rw [hko]; exact hc) hex with hp | hp
          · right
            rw [step_check_hit E o s c hp (by rw [hko]; exact hc)]
            simp [hs, Pc.isExec]
          · left
            rw [step_finish E o s _ hp]
            simp
      · have hr : (step E u s).results o = s.results o := step_results E s u o (Or.inl hou)
        have hp : ((step E u s).threads o).pc = (s.threads o).pc := step_pc_other E s u o hou
        rw [hr, hp]
        exact hs
    · simp [Served, hpct, hpc]
    · simp [Served, hpc] at hs
    · simp [Served, hpc] at hs
    · simp only [Served, hpc] at hs
      simp only [Served, hpct, hpc]
      exact hs
    · simp only [Served, hpc] at hs
      simp only [Served, hpct, hpc]
      exact hs
    · simp only [Served, hpc] at hs
      simp only [Served, hpct, hpc]
      exact hs

theorem served_run (E : Env Ctx Client Conn Err Opt W) (t : Nat) (c : Client) :
    ∀ (sched : List Nat) (s : Sys Ctx Client Conn Err Opt W), Inv E s → Inv2 E s →
      s.proxy.clients.get (s.keyOf E t) = some c → Served E c t s →
      Served E c t (run E sched s) := by
  intro sched
  induction sched with
  | nil => intro s _ _ _ hs; exact hs
  | cons u rest ih =>
    intro s hinv hinv2 hc hs
    refine ih _ (inv_step E s u hinv) (inv2_step E s u hinv hinv2) ?_
      (served_step E s hinv hinv2 t c hc hs u)
    rw [step_keyOf]
    exact step_clients_stable E s u hinv _ c hc

/-! ## Callers that arrive after a client is stored do return with it -/

theorem canReturn_step (E : Env Ctx Client Conn Err Opt W) (s : Sys Ctx Client Conn Err Opt W)
    (c : Client) (t u n : Nat) (h : CanReturn E c t (step E u s) n) :
    CanReturn E c t s (n + 1) := by
  obtain ⟨more, w, hlen, hpc⟩ := h
  exact ⟨u :: more, w, by simp [hlen], hpc⟩

theorem canReturn_mono (E : Env Ctx Client Conn Err Opt W) (s : Sys Ctx Client Conn Err Opt W)
    (c : Client) (t n m : Nat) (hnm : n ≤ m) (h : CanReturn E c t s n) : CanReturn E c t s m := by
  obtain ⟨more, w, hlen, hpc⟩ := h
  exact ⟨more, w, le_trans hlen hnm, hpc⟩

theorem canReturn_gotVal (E : Env Ctx Client Conn Err Opt W)
    (s : Sys Ctx Client Conn Err Opt W) (c : Client) (t : Nat)
    (hpc : (s.threads t).pc = .gotVal (.ok c)) : CanReturn E c t s 1 := by
  refine ⟨[t], s.world, le_refl _, ?_⟩
  show ((step E t s).threads t).pc = _
  rw [step_got_ok E t s c hpc]
  simp

theorem canReturn_finish (E : Env Ctx Client Conn Err Opt W)
    (s : Sys Ctx Client Conn Err Opt W) (c : Client) (t : Nat)
    (hpc : (s.threads t).pc = .finish (.ok c)) : CanReturn E c t s 2 := by
  refine canReturn_step E s c t t 1 (canReturn_gotVal E _ c t ?_)
  rw [step_finish E t s _ hpc]
  simp

theorem canReturn_check (E : Env Ctx Client Conn Err Opt W)
    (s : Sys Ctx Client Conn Err Opt W) (c : Client) (t : Nat)
    (hpc : (s.threads t).pc = .check) (hc : s.proxy.clients.get (s.keyOf E t) = some c) :
    CanReturn E c t s 3 := by
  refine canReturn_step E s c t t 2 (canReturn_finish E _ c t ?_)
  rw [step_check_hit E t s c hpc hc]
  simp

theorem canReturn_wake (E : Env Ctx Client Conn Err Opt W)
    (s : Sys Ctx Client Conn Err Opt W) (c : Client) (t o : Nat)
    (hpc : (s.threads t).pc = .waiting o) (hr : s.results o = some (.ok c)) :
    CanReturn E c t s 2 := by
  refine canReturn_step E s c t t 1 (canReturn_gotVal E _ c t ?_)
  rw [step_wait_wake E t s o _ hpc hr]
  simp

theorem canReturn_wait_finish (E : Env Ctx Client Conn Err Opt W)
    (s : Sys Ctx Client Conn Err Opt W) (c : Client) (t o : Nat)
    (hpc : (s.threads t).pc = .waiting o) (hpo : (s.threads o).pc = .finish (.ok c)) :
    CanReturn E c t s 3 := by
  have hto : t ≠ o := by
    intro heq
    subst heq
    rw [hpc] at hpo
    cases hpo
  refine canReturn_step E s c t o 2 (canReturn_wake E _ c t o ?_ ?_)
  · rw [step_pc_other E s o t hto]
    exact hpc
  · rw [step_finish E o s _ hpo]
    simp

theorem canReturn_wait_check (E : Env Ctx Client Conn Err Opt W)
    (s : Sys Ctx Client Conn Err Opt W) (c : Client) (t o : Nat)
    (hpc : (s.threads t).pc = .waiting o) (hpo : (s.threads o).pc = .check)
    (hc : s.proxy.clients.get (s.keyOf E o) = some c) : CanReturn E c t s 4 := by
  have hto : t ≠ o := by
    intro heq
    subst heq
    rw [hpc] at hpo
    cases hpo
  refine canReturn_step E s c t o 3 (canReturn_wait_finish E _ c t o ?_ ?_)
  · rw [step_pc_other E s o t hto]
    exact hpc
  · rw [step_check_hit E o s c hpo hc]
    simp

/-- A served caller that has entered `Do` can return with the stored client's connection. -/
theorem canReturn_entered (E : Env Ctx Client Conn Err Opt W)
    (s : Sys Ctx Client Conn Err Opt W) (hinv : Inv E s) (hinv2 : Inv2 E s) (c : Client)
    (t : Nat) (hc : s.proxy.clients.get (s.keyOf E t) = some c) (hs : Served E c t s)
    (hne : (s.threads t).pc ≠ .start) : CanReturn E c t s 4 := by
  rcases hpc : (s.threads t).pc with _ | o | _ | _ | c2 | res | res | r
  · exact absurd hpc hne
  · simp only [Served, hpc] at hs
    have hko : s.keyOf E o = s.keyOf E t := hinv.waitKey t o hpc
    rcases hs with hs | ⟨_, hex⟩
    · exact canReturn_mono E s c t 2 4 (by omega) (canReturn_wake E s c t o hpc hs)
    · rcases exec_of_cached E s hinv hinv2 o c (by rw [hko]; exact hc) hex with hp | hp
      · exact canReturn_wait_check E s c t o hpc hp (by rw [hko]; exact hc)
      · exact canReturn_mono E s c t 3 4 (by omega) (canReturn_wait_finish E s c t o hpc hp)
  · exact canReturn_mono E s c t 3 4 (by omega) (canReturn_check E s c t hpc hc)
  · simp [Served, hpc] at hs
  · simp [Served, hpc] at hs
  · simp only [Served, hpc] at hs
    subst hs
    exact canReturn_mono E s c t 2 4 (by omega) (canReturn_finish E s c t hpc)
  · simp only [Served, hpc] at hs
    subst hs
    exact canReturn_mono E s c t 1 4 (by omega) (canReturn_gotVal E s c t hpc)
  · simp only [Served, hpc] at hs
    obtain ⟨w, hw⟩ := hs
    exact ⟨[], w, by simp, by rw [← hw]; exact hpc⟩

/-- A served caller can return with the stored client's connection within five steps. -/
theorem canReturn_served (E : Env Ctx Client Conn Err Opt W)
    (s : Sys Ctx Client Conn Err Opt W) (hinv : Inv E s) (hinv2 : Inv2 E s) (c : Client)
    (t : Nat) (hc : s.proxy.clients.get (s.keyOf E t) = some c) (hs : Served E c t s) :
    CanReturn E c t s 5 := by
  by_cases hst : (s.threads t).pc = .start
  · refine canReturn_step E s c t t 4 (canReturn_entered E _ (inv_step E s t hinv)
      (inv2_step E s t hinv hinv2) c t ?_ (served_step E s hinv hinv2 t c hc hs t) ?_)
    · rw [step_keyOf]
      exact step_clients_stable E s t hinv _ c hc
    · rcases hcall : s.calls (s.keyOf E t) with _ | o
      · rw [step_start_exec E t s hst hcall]
        simp
      · rw [step_start_join E t s o hst hcall]
        simp
  · exact canReturn_mono E s c t 4 5 (by omega)
      (canReturn_entered E s hinv hinv2 c t hc hs hst)

/-! ## The first caller for a key builds the client -/

/-- A caller that enters `Do` while no call for its key is in flight and the cache has no
client under the key, and whose dial succeeds with client `c`, has after six steps of its own
stored `c` under the key and returned the result built from `Next` on `c`. -/
theorem first_caller_builds (E : Env Ctx Client Conn Err Opt W)
    (s : Sys Ctx Client Conn Err Opt W) (t : Nat) (c : Client)
    (hpc : (s.threads t).pc = .start) (hcall : s.calls (s.keyOf E t) = none)
    (hmiss : s.proxy.clients.get (s.keyOf E t) = none)
    (hd : (E.NewClient (dialConf s.proxy (E.ParseCredential (s.threads t).ctx)) s.proxy.options
      s.world).1 = .ok c) :
    (run E [t, t, t, t, t, t] s).proxy.clients.get (s.keyOf E t) = some c
      ∧ ((run E [t, t, t, t, t, t] s).threads t).pc
        = .done (connResult E (E.Next c (E.NewClient
            (dialConf s.proxy (E.ParseCredential (s.threads t).ctx)) s.proxy.options
            s.world).2).1) := by
  -- start: become the executor
  obtain ⟨s1, hs1⟩ : ∃ s1, s1 = step E t s := ⟨_, rfl⟩
  have e1 := step_start_exec E t s hpc hcall
  have p1 : (s1.threads t).pc = .check := by rw [hs1, e1]; simp
  have c1 : s1.proxy = s.proxy := by rw [hs1, e1]; rfl
  have w1 : s1.world = s.world := by rw [hs1, e1]; rfl
  have x1 : (s1.threads t).ctx = (s.threads t).ctx := by rw [hs1, e1]; simp
  have k1 : s1.keyOf E t = s.keyOf E t := by rw [hs1]; exact step_keyOf E s t t
  -- check: cache miss
  obtain ⟨s2, hs2⟩ : ∃ s2, s2 = step E t s1 := ⟨_, rfl⟩
  have e2 := step_check_miss E t s1 p1 (by rw [k1, c1]; exact hmiss)
  have p2 : (s2.threads t).pc = .dialing := by rw [hs2, e2]; simp
  have c2 : s2.proxy = s.proxy := by rw [hs2, e2]; exact c1
  have w2 : s2.world = s.world := by rw [hs2, e2]; exact w1
  have x2 : (s2.threads t).ctx = (s.threads t).ctx := by rw [hs2, e2]; simpa using x1
  have k2 : s2.keyOf E t = s.keyOf E t := by rw [hs2, step_keyOf]; exact k1
  -- dialing: `NewClient` returns `c`
  obtain ⟨s3, hs3⟩ : ∃ s3, s3 = step E t s2 := ⟨_, rfl⟩
  have hd2 : (E.NewClient (dialConf s2.proxy (E.ParseCredential (s2.threads t).ctx))
      s2.proxy.options s2.world).1 = .ok c := by rw [c2, x2, w2]; exact hd
  have e3 := step_dial_ok E t s2 c p2 hd2
  have p3 : (s3.threads t).pc = .store c := by rw [hs3, e3]; simp
  have c3 : s3.proxy = s.proxy := by rw [hs3, e3]; exact c2
  have w3 : s3.world = (E.NewClient (dialConf s.proxy (E.ParseCredential (s.threads t).ctx))
      s.proxy.options s.world).2 := by
    rw [hs3, e3]
    show (E.NewClient (dialConf s2.proxy (E.ParseCredential (s2.threads t).ctx))
      s2.proxy.options s2.world).2 = _
    rw [c2, x2, w2]
  have k3 : s3.keyOf E t = s.keyOf E t := by rw [hs3, step_keyOf]; exact k2
  -- store: the cache write
  obtain ⟨s4, hs4⟩ : ∃ s4, s4 = step E t s3 := ⟨_, rfl⟩
  have e4 := step_store E t s3 c p3
  have p4 : (s4.threads t).pc = .finish (.ok c) := by rw [hs4, e4]; simp
  have c4 : s4.proxy.clients.get (s.keyOf E t) = some c := by
    rw [hs4, e4, k3]
    simp [ClientMap.get, ClientMap.set]
  have w4 : s4.world = s3.world := by rw [hs4, e4]; rfl
  -- finish: the call completes
  obtain ⟨s5, hs5⟩ : ∃ s5, s5 = step E t s4 := ⟨_, rfl⟩
  have e5 := step_finish E t s4 _ p4
  have p5 : (s5.threads t).pc = .gotVal (.ok c) := by rw [hs5, e5]; simp
  have c5 : s5.proxy = s4.proxy := by rw [hs5, e5]; rfl
  have w5 : s5.world = s4.world := by rw [hs5, e5]; rfl
  -- lines 56-65
  obtain ⟨s6, hs6⟩ : ∃ s6, s6 = step E t s5 := ⟨_, rfl⟩
  have e6 := step_got_ok E t s5 c p5
  have p6 : (s6.threads t).pc = .done (connResult E (E.Next c s5.world).1) := by
    rw [hs6, e6]; simp
  have c6 : s6.proxy = s5.proxy := by rw [hs6, e6]; rfl
  have hrun : run E [t, t, t, t, t, t] s = s6 := by
    rw [hs6, hs5, hs4, hs3, hs2, hs1]
    rfl
  rw [hrun]
  refine ⟨by rw [c6, c5]; exact c4, ?_⟩
  rw [p6, w5, w4, w3]

/-- C6. Single construction under concurrency: in every state that any number of concurrent
`TakeConn` calls on a fresh proxy can reach, by any interleaving of their steps, two callers
that are inside `NewClient` with the same composite key are the same caller, so at most one
client per key is under construction.  An executor whose dial has returned a client stores
it under its key with its next step.  Once a client is stored under a key, it stays stored
there through every later interleaving, no caller with that key is inside `NewClient` again,
and every client that `Do` hands to a caller with that key is that stored client.  A caller
with that key that starts its lookup after the client is stored is served by it in every
later state (it never dials, the closure and `Do` hand it the stored client and no error, and
when it has returned, its result is built from a `Next` on the stored client), and from every
later state it can return with that result within five further steps.  And a client does
get built: a caller that enters `Do` while no call for its key is in flight and the cache
has no client under it, and whose dial succeeds, has after six steps of its own stored the
dialed client and returned the result built from `Next` on it. -/
theorem concurrent_single_construction (E : Env Ctx Client Conn Err Opt W) (backend : String)
    (opts : List Opt) (ctxs : Nat → Ctx) (w : W) (sched : List Nat) :
    (∀ t1 t2, (run E sched (Sys.init backend opts ctxs w)).dialing t1 →
        (run E sched (Sys.init backend opts ctxs w)).dialing t2 →
        (run E sched (Sys.init backend opts ctxs w)).keyOf E t1
          = (run E sched (Sys.init backend opts ctxs w)).keyOf E t2 →
        t1 = t2)
      ∧ (∀ k c, (run E sched (Sys.init backend opts ctxs w)).proxy.clients.get k = some c →
          ∀ later : List Nat,
            (run E later (run E sched (Sys.init backend opts ctxs w))).proxy.clients.get k
                = some c
              ∧ (∀ t, (run E later (run E sched (Sys.init backend opts ctxs w))).keyOf E t = k →
                  ¬ (run E later (run E sched (Sys.init backend opts ctxs w))).dialing t)
              ∧ (∀ t c2,
                  (run E later (run E sched (Sys.init backend opts ctxs w))).keyOf E t = k →
                  ((run E later (run E sched (Sys.init backend opts ctxs w))).threads t).pc
                    = .gotVal (.ok c2) →
                  c2 = c))
      ∧ (∀ t c, ((run E sched (Sys.init backend opts ctxs w)).threads t).pc = .store c →
          (step E t (run E sched (Sys.init backend opts ctxs w))).proxy.clients.get
              ((run E sched (Sys.init backend opts ctxs w)).keyOf E t) = some c
            ∧ ((step E t (run E sched (Sys.init backend opts ctxs w))).threads t).pc
              = .finish (.ok c))
      ∧ (∀ t c,
          (run E sched (Sys.init backend opts ctxs w)).proxy.clients.get
              ((run E sched (Sys.init backend opts ctxs w)).keyOf E t) = some c →
          ((run E sched (Sys.init backend opts ctxs w)).threads t).pc = .start →
          ∀ later : List Nat,
            Served E c t (run E later (run E sched (Sys.init backend opts ctxs w)))
              ∧ CanReturn E c t (run E later (run E sched (Sys.init backend opts ctxs w))) 5)
      ∧ (∀ t c, ((run E sched (Sys.init backend opts ctxs w)).threads t).pc = .start →
          (run E sched (Sys.init backend opts ctxs w)).calls
              ((run E sched (Sys.init backend opts ctxs w)).keyOf E t) = none →
          (run E sched (Sys.init backend opts ctxs w)).proxy.clients.get
              ((run E sched (Sys.init backend opts ctxs w)).keyOf E t) = none →
          (E.NewClient
              (dialConf (run E sched (Sys.init backend opts ctxs w)).proxy
                (E.ParseCredential ((run E sched (Sys.init backend opts ctxs w)).threads t).ctx))
              (run E sched (Sys.init backend opts ctxs w)).proxy.options
              (run E sched (Sys.init backend opts ctxs w)).world).1 = .ok c →
          (run E [t, t, t, t, t, t] (run E sched (Sys.init backend opts ctxs w))).proxy.clients.get
              ((run E sched (Sys.init backend opts ctxs w)).keyOf E t) = some c
            ∧ ∃ w2, ((run E [t, t, t, t, t, t]
                  (run E sched (Sys.init backend opts ctxs w))).threads t).pc
                = .done (connResult E (E.Next c w2).1)) := by
  have hinv := inv_run E sched _ (inv_init E backend opts ctxs w)
  have hinv2 := inv2_run E sched _ (inv_init E backend opts ctxs w)
    (inv2_init E backend opts ctxs w)
  generalize run E sched (Sys.init backend opts ctxs w) = s at hinv hinv2
  refine ⟨fun t1 t2 h1 h2 hk => ?_, fun k c hk later => ?_, fun t c hpc => ?_,
    fun t c hc hpc later => ?_, fun t c hpc hcall hmiss hd => ?_⟩
  · exact inv_owner_unique E s hinv t2 t1 (by rw [h2]; rfl) (by rw [h1]; rfl) hk
  · have hinvL := inv_run E later s hinv
    have hst := run_clients_stable E later s hinv k c hk
    refine ⟨hst, fun t ht hd => ?_, fun t c2 ht hg => ?_⟩
    · have := hinvL.fresh t (by rw [hd]; rfl)
      rw [ht, hst] at this
      cases this
    · have := hinvL.got t c2 hg
      rw [ht, hst] at this
      exact (Option.some.inj this).symm
  · rw [step_store E t s c hpc]
    simp [ClientMap.get, ClientMap.set]
  · have hs : Served E c t s := by simp [Served, hpc]
    have hsL := served_run E t c later s hinv hinv2 hc hs
    have hcL : (run E later s).proxy.clients.get ((run E later s).keyOf E t) = some c := by
      rw [run_keyOf]
      exact run_clients_stable E later s hinv _ c hc
    exact ⟨hsL, canReturn_served E _ (inv_run E later s hinv) (inv2_run E later s hinv hinv2)
      c t hcL hsL⟩
  · have h := first_caller_builds E s t c hpc hcall hmiss hd
    exact ⟨h.1, _, h.2⟩

theorem concurrent_single_construction_witness :
    CanReturn sampleEnv 0 1
      (run sampleEnv [1] (run sampleEnv [0, 0, 0, 0, 0, 0]
        (Sys.init "backend" [] (fun _ => ⟨"shop", "t1"⟩) 0))) 5 :=
  ((concurrent_single_construction sampleEnv "backend" [] (fun _ => ⟨"shop", "t1"⟩) 0
    [0, 0, 0, 0, 0, 0]).2.2.2.1 1 0 rfl rfl [1]).2

/-- A run of three callers with the same credential on the sample environment: caller `0`
executes and dials, caller `1` joins as a waiter while the dial is in flight, caller `2`
arrives after the client is stored.  All three return the connection of client `0`, and the
log holds a single dial. -/
theorem concurrent_sample_run :
    (run sampleEnv.traced [0, 1, 0] (Sys.init "backend" [] (fun _ => ⟨"shop", "t1"⟩) (0, []))).dialing 0
      ∧ ((run sampleEnv.traced [0, 1, 0]
            (Sys.init "backend" [] (fun _ => ⟨"shop", "t1"⟩) (0, []))).threads 1).pc = .waiting 0
      ∧ ((run sampleEnv.traced [0, 1, 0, 0, 0, 0, 1, 0, 1, 2, 2, 2, 2]
            (Sys.init "backend" [] (fun _ => ⟨"shop", "t1"⟩) (0, []))).threads 0).pc
          = .done (some 100, none)
      ∧ ((run sampleEnv.traced [0, 1, 0, 0, 0, 0, 1, 0, 1, 2, 2, 2, 2]
            (Sys.init "backend" [] (fun _ => ⟨"shop", "t1"⟩) (0, []))).threads 1).pc
          = .done (some 100, none)
      ∧ ((run sampleEnv.traced [0, 1, 0, 0, 0, 0, 1, 0, 1, 2, 2, 2, 2]
            (Sys.init "backend" [] (fun _ => ⟨"shop", "t1"⟩) (0, []))).threads 2).pc
          = .done (some 100, none)
      ∧ (run sampleEnv.traced [0, 1, 0, 0, 0, 0, 1, 0, 1, 2, 2, 2, 2]
            (Sys.init "backend" [] (fun _ => ⟨"shop", "t1"⟩) (0, []))).world.2
          = [.dial { Server := "backend", App := "shop", Token := "t1" } [] (.ok 0),
             .next 0 (some 100), .next 0 (some 100), .next 0 (some 100)] :=
  ⟨rfl, rfl, rfl, rfl, rfl, rfl⟩

end Interleaving

end Concurrent

end Rpcx

namespace Httphandler

section Metric

variable {M Req P W : Type}

/-- The traced run of the handler acts on the world as the plain run does and ends as it does. -/
theorem traced_metricHandler (E : Env M W) (metrics : M) (next : Handler Req P W) (r : Req)
    (w : W) (l : List (Event M Req P)) :
    (MetricHandler (E.traced Req P) metrics (next.traced M) r (w, l)).1
        = (MetricHandler E metrics next r w).1
      ∧ (MetricHandler (E.traced Req P) metrics (next.traced M) r (w, l)).2.1
        = (MetricHandler E metrics next r w).2 := by
  simp [MetricHandler, Since, Env.traced, Handler.traced]

/-- C5. The timing sample is emitted exactly once on every exit path: for every request `r`
and every downstream handler `next`, the handler built by `MetricHandler` takes a clock
reading, invokes `next.ServeHTTP` exactly once, and after `next` has finished, whether by
returning or by panicking, takes a second reading and adds exactly one task to the sink
`metrics`; it then ends the way `next` ended. -/
theorem metricHandler_one_task (E : Env M W) (metrics : M) (next : Handler Req P W) (r : Req)
    (w : W) :
    (MetricHandler (E.traced Req P) metrics (next.traced M) r (w, [])).2.2
        = [.now (E.Now w).1,
           .enter r,
           .leave r (next r (E.Now w).2).1,
           .now (E.Now (next r (E.Now w).2).2).1,
           .add metrics { Duration := (E.Now (next r (E.Now w).2).2).1 - (E.Now w).1 }]
      ∧ (MetricHandler E metrics next r w).1 = (next r (E.Now w).2).1
      ∧ (MetricHandler E metrics next r w).2
        = E.Add metrics { Duration := (E.Now (next r (E.Now w).2).2).1 - (E.Now w).1 }
            (E.Now (next r (E.Now w).2).2).2 := by
  simp [MetricHandler, Since, Env.traced, Handler.traced]

/-- C10. The recorded duration covers the whole downstream chain: the task that
`MetricHandler` adds has as `Duration` the clock reading taken after `next.ServeHTTP` has
finished minus the reading taken before it was started; when the clock `clock` never runs
backwards, a reading lying between the clock before and after it, that duration is
non-negative and at least the time that passed inside `next`. -/
theorem metricHandler_duration (E : Env M W) (metrics : M) (next : Handler Req P W) (r : Req)
    (w : W) (clock : W → Int)
    (hnow : ∀ v, clock v ≤ (E.Now v).1 ∧ (E.Now v).1 ≤ clock (E.Now v).2)
    (hnext : ∀ q v, clock v ≤ clock (next q v).2) :
    ∃ task : Task,
      (MetricHandler (E.traced Req P) metrics (next.traced M) r (w, [])).2.2.getLast?
          = some (.add metrics task)
        ∧ task.Duration = (E.Now (next r (E.Now w).2).2).1 - (E.Now w).1
        ∧ 0 ≤ task.Duration
        ∧ clock (next r (E.Now w).2).2 - clock (E.Now w).2 ≤ task.Duration := by
  refine ⟨{ Duration := (E.Now (next r (E.Now w).2).2).1 - (E.Now w).1 }, ?_, rfl, ?_, ?_⟩
  · simp [MetricHandler, Since, Env.traced, Handler.traced]
  · have h1 := hnow w
    have h2 := hnext r (E.Now w).2
    have h3 := hnow (next r (E.Now w).2).2
    show 0 ≤ (E.Now (next r (E.Now w).2).2).1 - (E.Now w).1
    omega
  · have h1 := hnow w
    have h3 := hnow (next r (E.Now w).2).2
    show _ ≤ (E.Now (next r (E.Now w).2).2).1 - (E.Now w).1
    omega

theorem metricHandler_duration_witness :
    ∃ task : Task,
      (MetricHandler (sampleEnv.traced String String) () (sampleNext.traced Unit) "boom"
          ((1000, []), [])).2.2.getLast? = some (.add () task)
        ∧ task.Duration = 41
        ∧ 0 ≤ task.Duration
        ∧ (40 : Int) ≤ task.Duration :=
  metricHandler_duration sampleEnv () sampleNext "boom" (1000, []) (fun v => v.1)
    (fun v => ⟨le_refl _, by simp [sampleEnv]⟩) (fun q v => by simp [sampleNext])

end Metric

end Httphandler

namespace Ngin

/-- C8. Configuration defaults and ranges: the tags of `NgConf` declare `MaxConns` with
default 10000, `MaxBytes` with default 1048576 = 2^20 (1 MiB) and range from 0 to
8388608 = 2^23 (8 MiB), `Timeout`, commented as milliseconds, with default 3000, and
`CpuThreshold` with default 900 and range from 0 to 1000; the tags of `SignatureConf` declare
`Strict` with default false and `Expiry` with default `1h`, one hour; and every declared
default lies inside its declared range. -/
theorem declared_defaults :
    defaultNat NgConf "MaxConns" = some 10000
      ∧ defaultNat NgConf "MaxBytes" = some 1048576
      ∧ (1048576 : Nat) = 2 ^ 20
      ∧ range NgConf "MaxBytes" = some (0, 8388608)
      ∧ (8388608 : Nat) = 2 ^ 23 ∧ (8388608 : Nat) = 8 * 2 ^ 20
      ∧ defaultNat NgConf "Timeout" = some 3000
      ∧ commentOf NgConf "Timeout" = some "milliseconds"
      ∧ defaultNat NgConf "CpuThreshold" = some 900
      ∧ range NgConf "CpuThreshold" = some (0, 1000)
      ∧ defaultBool SignatureConf "Strict" = some false
      ∧ defaultText SignatureConf "Expiry" = some "1h"
      ∧ defaultDuration SignatureConf "Expiry" = some (3600 * 1000000000)
      ∧ (∀ f ∈ NgConf ++ SignatureConf, defaultInRange f = true) := by
  decide

end Ngin
